import Mathlib

/-
Verification of the colade incremental build engine (package `sitegen`).

Paths are modelled as lists of characters (`Path := List Char`), mirroring the
Go code's manipulation of path strings.  Pure string manipulation from the
source (`filepath.Ext`, the extension-replacement expression
`dst[:len(dst)-len(filepath.Ext(dst))] + ".html"`, `strings.Split` on "/",
`strings.HasPrefix(part, ".")`, `filepath.Join`, `filepath.Rel`) is translated
function-by-function.  `filepath.Join base name` is modelled for cleaned paths
as `base ++ "/" ++ name`, and `filepath.Rel base target` as stripping the
prefix `base ++ "/"`.
-/

namespace Colade

/-- Paths are lists of characters; the Go code works with path strings. -/
abbrev Path := List Char

/-- pathOf turns a Lean string literal into a modelled path. -/
def pathOf (s : String) : Path := s.data

/-- goExtRevAux scans a reversed path accumulating the extension, mirroring
the loop of Go `filepath.Ext`: walking from the end of the string, stop with
an empty result at a path separator, and return the accumulated suffix when a
dot is reached. -/
def goExtRevAux : List Char → List Char → List Char
  | [], _ => []
  | c :: rest, acc =>
    if c = '/' then []
    else if c = '.' then c :: acc
    else goExtRevAux rest (c :: acc)

/-- goExt models Go `filepath.Ext`: the suffix of the final path element
starting at its last dot, or empty when the final element has no dot. -/
def goExt (p : Path) : Path := goExtRevAux p.reverse []

/-- htmlExt is the literal ".html" appended by the generator. -/
def htmlExt : Path := pathOf ".html"

/-- stripExt removes the `filepath.Ext` suffix, the Go expression
`s[:len(s)-len(filepath.Ext(s))]`. -/
def stripExt (p : Path) : Path := p.take (p.length - (goExt p).length)

/-- docOutputPath is the output path of a document: its input-relative path
with the extension replaced by ".html", the expression
`f[:len(f)-len(filepath.Ext(f))] + ".html"` from `isExpectedFile` and
`CreateCacheFromFileSet`. -/
def docOutputPath (f : Path) : Path := stripExt f ++ htmlExt

/-- goJoin models `filepath.Join` on cleaned nonempty components. -/
def goJoin (a b : Path) : Path := a ++ '/' :: b

/-- startsWithPath p q tests whether p is a leading segment of q. -/
def startsWithPath : Path → Path → Bool
  | [], _ => true
  | _ :: _, [] => false
  | c :: cs, d :: ds => c = d && startsWithPath cs ds

/-- goRel models `filepath.Rel base target` for targets produced by
`filepath.Join base x`: it strips the leading `base ++ "/"`, failing
otherwise. -/
def goRel (base target : Path) : Option Path :=
  if startsWithPath (base ++ ['/']) target then some (target.drop (base.length + 1)) else none

/-- splitSlash models `strings.Split s "/"`. -/
def splitSlash : Path → List Path
  | [] => [[]]
  | c :: rest =>
    if c = '/' then [] :: splitSlash rest
    else
      match splitSlash rest with
      | [] => [[c]]
      | h :: t => (c :: h) :: t

/-- startsDot models `strings.HasPrefix part "."`. -/
def startsDot : Path → Bool
  | [] => false
  | c :: _ => c = '.'

/-- hiddenAnyP tests whether some slash-separated component of the path
begins with a dot (the loop body of `isHiddenFile`). -/
def hiddenAnyP (p : Path) : Bool := (splitSlash p).any startsDot

/-- isHiddenFile models `isHiddenFile` from discovery.go: "." is never
hidden, otherwise the path is hidden when some component begins with ".". -/
def isHiddenFile (relPath : Path) : Bool :=
  if relPath = ['.'] then false
  else hiddenAnyP relPath

/-- isDocExt tests for the two document extensions of `classifyFile`,
a case-sensitive match on the literal extension. -/
def isDocExt (ext : Path) : Bool := ext = pathOf ".md" ∨ ext = pathOf ".markdown"

/-- classifyFile models `classifyFile` from discovery.go: the switch on
`filepath.Ext(name)` with cases ".md", ".markdown" giving "markdown",
default "asset". -/
def classifyFile (name : Path) : String :=
  if isDocExt (goExt name) then "markdown" else "asset"

/-- noSlashName holds for genuine file-system entry names, which cannot
contain the path separator. -/
def noSlashName (name : Path) : Bool := !(name.any (· = '/'))

/-- joinRel builds the input-relative path of an entry from the relative path
of its parent directory: at the top of the tree it is the entry name itself
(`filepath.Rel root (filepath.Join root name) = name`), deeper it is
`parent ++ "/" ++ name`. -/
def joinRel (pre name : Path) : Path := if pre = [] then name else pre ++ '/' :: name

/-
Directory trees.  `filepath.Walk` performs a depth-first traversal visiting a
directory before its children; returning `filepath.SkipDir` from the callback
on a directory prunes that subtree without error.  We model the tree below
the walked root as a forest of nodes and the walk as structural recursion;
`SkipDir` corresponds to not recursing into a directory's children.
-/

mutual

inductive FsNode where
  | file (name : Path)
  | dir (name : Path) (children : FsForest)

inductive FsForest where
  | nil : FsForest
  | cons (head : FsNode) (tail : FsForest) : FsForest
end

mutual

/-- nodeFiles lists the walk-relative paths of every regular file below a
node, with no pruning: the raw content of the tree. -/
def nodeFiles (pre : Path) : FsNode → List Path
  | .file name => [joinRel pre name]
  | .dir name children => forestFiles (joinRel pre name) children

/-- forestFiles lists the walk-relative paths of every regular file in a
forest. -/
def forestFiles (pre : Path) : FsForest → List Path
  | .nil => []
  | .cons n t => nodeFiles pre n ++ forestFiles pre t
end

mutual

/-- nodeHasNames holds when every entry name below a node is free of the
path separator, as is true of genuine file-system entries. -/
def nodeHasNames : FsNode → Bool
  | .file name => noSlashName name
  | .dir name children => noSlashName name && forestHasNames children

/-- forestHasNames extends nodeHasNames to forests. -/
def forestHasNames : FsForest → Bool
  | .nil => true
  | .cons n t => nodeHasNames n && forestHasNames t
end

/-- FileSetM models `FileSet` from discovery.go: the ordered lists of
discovered markdown files and asset files (input-relative paths). -/
structure FileSetM where
  markdownFiles : List Path
  assetFiles : List Path
deriving DecidableEq

/-- appendFS concatenates two discovery results in walk order. -/
def appendFS (a b : FileSetM) : FileSetM :=
  ⟨a.markdownFiles ++ b.markdownFiles, a.assetFiles ++ b.assetFiles⟩

mutual

/-- discoverNode models the `DiscoverFiles` walk callback at one entry:
hidden relative paths are skipped (for directories, `SkipDir` prunes the
whole subtree); a surviving directory is traversed; a surviving regular file
is classified by `classifyFile` on its entry name and appended to the
matching list. -/
def discoverNode (pre : Path) : FsNode → FileSetM
  | .file name =>
    let relPath := joinRel pre name
    if isHiddenFile relPath then ⟨[], []⟩
    else if classifyFile name = "markdown" then ⟨[relPath], []⟩
    else ⟨[], [relPath]⟩
  | .dir name children =>
    let relPath := joinRel pre name
    if isHiddenFile relPath then ⟨[], []⟩
    else discoverForest relPath children

/-- discoverForest folds discoverNode over a forest in walk order. -/
def discoverForest (pre : Path) : FsForest → FileSetM
  | .nil => ⟨[], []⟩
  | .cons n t => appendFS (discoverNode pre n) (discoverForest pre t)
end

/-- discoverFiles models `DiscoverFiles inputDir` applied to the tree below
the input root (whose own relative path "." is never hidden and is a
directory, so the walk proceeds into the forest). -/
def discoverFiles (root : FsForest) : FileSetM := discoverForest [] root

/-- okMd is the survival predicate for the markdown list of discovery. -/
def okMd (p : Path) : Bool := !isHiddenFile p && isDocExt (goExt p)

/-- okAsset is the survival predicate for the asset list of discovery. -/
def okAsset (p : Path) : Bool := !isHiddenFile p && !isDocExt (goExt p)



/-
Output-tree reconciliation of the full build: `OutputCleaner.CleanupOrphanedFiles`
walks the output tree; entries whose relative path is ".colade-cache" or whose
entry name begins with "." are skipped (directories with `SkipDir`, pruning the
subtree); surviving directories are traversed; a surviving file is removed
unless `isExpectedFile` accepts it.  The walk callback never returns a non-nil
error (walk errors are swallowed with `return nil`), so the model is total.
`candidates` records the relative paths on which `isExpectedFile` was
evaluated.
-/

/-- cacheName is the fixed cache file name ".colade-cache". -/
def cacheName : Path := pathOf ".colade-cache"

/-- getCachePath models `getCachePath`: the fixed path of the cache file
inside the output directory. -/
def getCachePath (outputDir : Path) : Path := goJoin outputDir cacheName

/-- isExpectedFile models `OutputCleaner.isExpectedFile`: a relative path is
expected when it is the derived HTML output of a discovered markdown file, a
discovered asset path, or the generated feed file while RSS is enabled. -/
def isExpectedFile (fs : FileSetM) (rssURL : Path) (relPath : Path) : Bool :=
  fs.markdownFiles.any (fun f => relPath = docOutputPath f)
  || fs.assetFiles.any (fun f => relPath = f)
  || (decide (relPath = pathOf "feed.xml") && !(rssURL = []))

/-- CleanResult is the effect of the full-build cleanup walk: the files it
removed and the files it tested against isExpectedFile. -/
structure CleanResult where
  removed : List Path
  candidates : List Path
deriving DecidableEq

/-- appendCR concatenates two cleanup effects in walk order. -/
def appendCR (a b : CleanResult) : CleanResult :=
  ⟨a.removed ++ b.removed, a.candidates ++ b.candidates⟩

mutual

/-- cleanNode models the CleanupOrphanedFiles walk callback on one entry. -/
def cleanNode (fs : FileSetM) (rssURL : Path) (pre : Path) : FsNode → CleanResult
  | .file name =>
    let relPath := joinRel pre name
    if relPath = cacheName ∨ startsDot name = true then ⟨[], []⟩
    else if isExpectedFile fs rssURL relPath then ⟨[], [relPath]⟩
    else ⟨[relPath], [relPath]⟩
  | .dir name children =>
    let relPath := joinRel pre name
    if relPath = cacheName ∨ startsDot name = true then ⟨[], []⟩
    else cleanForest fs rssURL relPath children

/-- cleanForest folds cleanNode over a forest in walk order. -/
def cleanForest (fs : FileSetM) (rssURL : Path) (pre : Path) : FsForest → CleanResult
  | .nil => ⟨[], []⟩
  | .cons n t => appendCR (cleanNode fs rssURL pre n) (cleanForest fs rssURL pre t)
end

/-- cleanupOrphanedFiles models `OutputCleaner.CleanupOrphanedFiles` applied
to the tree below the output root (the root itself is skipped as "."). -/
def cleanupOrphanedFiles (fs : FileSetM) (rssURL : Path) (outTree : FsForest) : CleanResult :=
  cleanForest fs rssURL [] outTree


/-
Cache store (cache.go).  A cache is `{version, files}` where `files` is a Go
map from input-relative path to `{mtime, output}`.  The map is modelled as an
association list with replace-or-append insertion, so lookup after the build
loops matches Go map semantics.  `loadCache` opens and JSON-decodes the file;
any failure (absent, unreadable, undecodable) yields an error.  The
deserialized result is abstracted as a function from the path read to
`Except LoadErr CacheFile`.
-/

/-- CacheFileEntry models `cacheFileEntry`: mtime in unix seconds and the
output-relative path. -/
structure CacheFileEntry where
  mtime : Int
  output : Path
deriving DecidableEq

/-- CacheEntries is the modelled Go map from path to cache entry. -/
abbrev CacheEntries := List (Path × CacheFileEntry)

/-- CacheFile models `cacheFile`: a version and the per-path entries. -/
structure CacheFile where
  version : Int
  files : CacheEntries
deriving DecidableEq

/-- newCache models `newCache()`: version 1 and no entries. -/
def newCacheM : CacheFile := ⟨1, []⟩

/-- findEntry models Go map lookup `c.Files[relPath]`. -/
def findEntry : CacheEntries → Path → Option CacheFileEntry
  | [], _ => none
  | (k, v) :: rest, p => if k = p then some v else findEntry rest p

/-- insertEntry models Go map assignment `c.Files[relPath] = entry`. -/
def insertEntry : CacheEntries → Path → CacheFileEntry → CacheEntries
  | [], p, e => [(p, e)]
  | (k, v) :: rest, p, e =>
    if k = p then (p, e) :: rest else (k, v) :: insertEntry rest p e

/-- insertMapped inserts one entry per path of a list, with the entry
computed from the path, in list order; this is the common shape of the cache
population loops. -/
def insertMapped (mk : Path → CacheFileEntry) : CacheEntries → List Path → CacheEntries
  | acc, [] => acc
  | acc, f :: rest => insertMapped mk (insertEntry acc f (mk f)) rest

/-- LoadErr distinguishes the two failure modes of `loadCache`: an error
from `os.Open` (absent or unreadable file) and an error from JSON decoding
(corrupt contents).  The orchestrator never inspects which one occurred. -/
inductive LoadErr where
  | openErr
  | decodeErr
deriving DecidableEq

/-
Build environment.  File contents, the external renderer and the templater
do not influence which files are read, written, skipped or removed, so the
model abstracts every I/O outcome into an environment of oracles keyed by
the path the source passes to the corresponding call.
-/

/-- Env abstracts the file-system and collaborator outcomes of one build
run: the `os.Stat` modification time for a path (none = stat error), the
success of the per-stage operations of document processing (keyed by the
document's input-relative path), asset copying, the gzip advisory goroutine
managing to read the written output back (it sends no message otherwise),
RSS generation, and the final cache write. -/
structure Env where
  statMtime : Path → Option Int
  readDocOk : Path → Bool
  convertOk : Path → Bool
  mkdirOk : Path → Bool
  writeOk : Path → Bool
  copyOk : Path → Bool
  gzipReadOk : Path → Bool
  rssOk : Bool
  saveOk : Bool

/-- getMtime models `getMtime`: the stat modification time, or 0 when stat
fails; it never reports an error. -/
def getMtime (env : Env) (path : Path) : Int :=
  match env.statMtime path with
  | some m => m
  | none => 0

/-- BuildErr models the error values produced by per-file processing, RSS
generation and the cache save; processing errors carry the offending
input-relative path that the source formats into the message. -/
inductive BuildErr where
  | readErr (relPath : Path)
  | convertErr (relPath : Path)
  | mkdirErr (relPath : Path)
  | writeErr (relPath : Path)
  | copyAssetErr (relPath : Path)
  | relPathErr (relPath : Path)
  | rssErr
  | saveCacheErr
deriving DecidableEq

/-- offendingPath extracts the input-relative path named by an error, when
the error is a per-file one. -/
def BuildErr.offendingPath : BuildErr → Option Path
  | .readErr p => some p
  | .convertErr p => some p
  | .mkdirErr p => some p
  | .writeErr p => some p
  | .copyAssetErr p => some p
  | .relPathErr p => some p
  | .rssErr => none
  | .saveCacheErr => none

/-- SizeMsg is one message on the size-advisory channel: the empty string
sent synchronously for a skipped file, or the gzip report naming the written
output file. -/
inductive SizeMsg where
  | empty
  | gzipFor (dst : Path)
deriving DecidableEq

/-- processMarkdownFile models `MarkdownProcessor.ProcessMarkdownFile`:
derive dst by replacing the extension of the joined output path with
".html", read the source, convert, create the output directory, write, and
hand dst to `CheckGzipSize`, which spawns a goroutine that sends exactly one
message naming dst, or no message at all if reading dst back fails.  Each
failure aborts with an error naming relPath. -/
def processMarkdownFile (env : Env) (inputDir outputDir relPath : Path) :
    Except BuildErr (List SizeMsg) :=
  let src := goJoin inputDir relPath
  let dst := stripExt (goJoin outputDir relPath) ++ htmlExt
  if !env.readDocOk src then .error (.readErr relPath)
  else if !env.convertOk src then .error (.convertErr relPath)
  else if !env.mkdirOk dst then .error (.mkdirErr relPath)
  else if !env.writeOk dst then .error (.writeErr relPath)
  else .ok (if env.gzipReadOk dst then [.gzipFor dst] else [])

/-- processAssetFile models `ProcessAssetFile`: copy the file beneath the
output root, failing when any step of `copyFilePreserveDirs` fails. -/
def processAssetFile (env : Env) (inputDir outputDir relPath : Path) : Except Unit Unit :=
  if env.copyOk (goJoin inputDir relPath) then .ok () else .error ()

/-- mdDst is the destination the processor writes a document to: the joined
output path with its extension replaced by ".html", the expression
`dst[:len(dst)-len(filepath.Ext(dst))] + ".html"`. -/
def mdDst (outputDir relPath : Path) : Path :=
  stripExt (goJoin outputDir relPath) ++ htmlExt

/-- entryChanged is the change test shared by both incremental loops (the
`!ok || prev.Mtime != mtime` condition): absent from the prior cache, or
recorded mtime different from the current one. -/
def entryChanged (env : Env) (cache : CacheFile) (inputDir relPath : Path) : Bool :=
  match findEntry cache.files relPath with
  | none => true
  | some prev => decide (prev.mtime ≠ getMtime env (goJoin inputDir relPath))

/-- mdEntry is the cache entry the loops record for a markdown path: current
mtime and the derived HTML output path. -/
def mdEntry (env : Env) (inputDir relPath : Path) : CacheFileEntry :=
  ⟨getMtime env (goJoin inputDir relPath), docOutputPath relPath⟩

/-- assetEntry is the cache entry the loops record for an asset path:
current mtime and the path itself. -/
def assetEntry (env : Env) (inputDir relPath : Path) : CacheFileEntry :=
  ⟨getMtime env (goJoin inputDir relPath), relPath⟩

/-- mdSendFor is the advisory-channel traffic one markdown file generates in
the incremental loop: the goroutine's report naming the written output
(nothing when it cannot read it back), or the synchronous "" for a skipped
file. -/
def mdSendFor (env : Env) (cache : CacheFile) (inputDir outputDir relPath : Path) : List SizeMsg :=
  if entryChanged env cache inputDir relPath then
    (if env.gzipReadOk (mdDst outputDir relPath) then [.gzipFor (mdDst outputDir relPath)] else [])
  else [.empty]

/-- IncBuilder models the mutable state of `IncrementalBuilder`: the loaded
prior cache (read-only), the new cache entries being built, and the set of
paths seen so far (insertion order kept). -/
structure IncBuilder where
  cache : CacheFile
  newCacheFiles : CacheEntries
  seen : List Path
deriving DecidableEq

/-- BuildTrace records observable effects of the processing loops: the
relative paths actually handed to per-file processing, and the messages sent
on the size-advisory channel in program order. -/
structure BuildTrace where
  processed : List Path
  sends : List SizeMsg
deriving DecidableEq

/-- incStepMd models one iteration of `IncrementalBuilder.ProcessMarkdownFiles`:
derive dst, stat the source, mark the path seen, process when the prior entry
is absent or its mtime differs (a skipped file sends "" instead), then record
the new cache entry with the current mtime and the output path relative to
the output root. -/
def incStepMd (env : Env) (inputDir outputDir : Path) (b : IncBuilder) (tr : BuildTrace)
    (relPath : Path) : Except BuildErr (IncBuilder × BuildTrace) :=
  let afterProc : Except BuildErr BuildTrace :=
    if entryChanged env b.cache inputDir relPath then
      match processMarkdownFile env inputDir outputDir relPath with
      | .error e => .error e
      | .ok msgs => .ok ⟨tr.processed ++ [relPath], tr.sends ++ msgs⟩
    else .ok ⟨tr.processed, tr.sends ++ [.empty]⟩
  match afterProc with
  | .error e => .error e
  | .ok trNext =>
    match goRel outputDir (mdDst outputDir relPath) with
    | none => .error (.relPathErr relPath)
    | some outputPath =>
      .ok (⟨b.cache,
            insertEntry b.newCacheFiles relPath
              ⟨getMtime env (goJoin inputDir relPath), outputPath⟩,
            b.seen ++ [relPath]⟩, trNext)

/-- incProcessMdFiles folds incStepMd over the markdown list, aborting at the
first error as the source loop does. -/
def incProcessMdFiles (env : Env) (inputDir outputDir : Path) (b : IncBuilder) (tr : BuildTrace) :
    List Path → Except BuildErr (IncBuilder × BuildTrace)
  | [] => .ok (b, tr)
  | p :: ps =>
    match incStepMd env inputDir outputDir b tr p with
    | .error e => .error e
    | .ok (b2, tr2) => incProcessMdFiles env inputDir outputDir b2 tr2 ps

/-- incStepAsset models one iteration of
`IncrementalBuilder.ProcessAssetFiles`: as incStepMd, but the destination
keeps its path, copying replaces processing, a copy failure is wrapped as an
error naming the asset, and no channel message is sent. -/
def incStepAsset (env : Env) (inputDir outputDir : Path) (b : IncBuilder) (tr : BuildTrace)
    (relPath : Path) : Except BuildErr (IncBuilder × BuildTrace) :=
  let afterProc : Except BuildErr BuildTrace :=
    if entryChanged env b.cache inputDir relPath then
      match processAssetFile env inputDir outputDir relPath with
      | .error _ => .error (.copyAssetErr relPath)
      | .ok _ => .ok ⟨tr.processed ++ [relPath], tr.sends⟩
    else .ok tr
  match afterProc with
  | .error e => .error e
  | .ok trNext =>
    match goRel outputDir (goJoin outputDir relPath) with
    | none => .error (.relPathErr relPath)
    | some outputPath =>
      .ok (⟨b.cache,
            insertEntry b.newCacheFiles relPath
              ⟨getMtime env (goJoin inputDir relPath), outputPath⟩,
            b.seen ++ [relPath]⟩, trNext)

/-- incProcessAssetFiles folds incStepAsset over the asset list. -/
def incProcessAssetFiles (env : Env) (inputDir outputDir : Path) (b : IncBuilder) (tr : BuildTrace) :
    List Path → Except BuildErr (IncBuilder × BuildTrace)
  | [] => .ok (b, tr)
  | p :: ps =>
    match incStepAsset env inputDir outputDir b tr p with
    | .error e => .error e
    | .ok (b2, tr2) => incProcessAssetFiles env inputDir outputDir b2 tr2 ps

/-- cleanupRemovedFiles models `IncrementalBuilder.CleanupRemovedFiles`: for
every prior-cache path not seen in this run, remove its recorded output
joined beneath the output root.  The function returns the removed output
paths; `os.Remove`'s result is discarded by the source, so no error can
arise. -/
def cleanupRemovedFiles (outputDir : Path) (cacheFiles : CacheEntries) (seen : List Path) :
    List Path :=
  (cacheFiles.filter (fun kv => !(decide (kv.1 ∈ seen)))).map
    (fun kv => goJoin outputDir kv.2.output)

/-- osRemove models the effect of `os.Remove` on the set of extant output
files; removing an absent file leaves the set unchanged (the source ignores
the returned error either way). -/
def osRemove (fsState : List Path) (p : Path) : List Path := fsState.erase p

/-- applyRemovals applies a sequence of removals to the extant-file set. -/
def applyRemovals (fsState : List Path) (targets : List Path) : List Path :=
  targets.foldl osRemove fsState

/-- Outcome packages one build attempt's observable result: the
(completed, err) pair of `tryIncrementalBuild`, the cache that got saved (none
when the save step was never reached or failed), the per-file processing
trace, the advisory messages sent, the outputs removed by cleanup, and the
messages drained from the advisory channel. -/
structure Outcome where
  completed : Bool
  err : Option BuildErr
  persisted : Option CacheFile
  processed : List Path
  sends : List SizeMsg
  removed : List Path
  drained : List SizeMsg
deriving DecidableEq

/-- noCacheOutcome is the `(false, nil)` return of `tryIncrementalBuild` when
no valid cache exists: the caller falls back to the full strategy. -/
def noCacheOutcome : Outcome := ⟨false, none, none, [], [], [], []⟩

/-- failedOutcome is the early-error return of a build function: the error is
propagated and the cache save step is never reached. -/
def failedOutcome (e : BuildErr) : Outcome := ⟨false, some e, none, [], [], [], []⟩

/-- tryIncrementalBuild models `tryIncrementalBuild`: load the cache from the
fixed path; on any load error or a version other than 1 report (false, nil);
otherwise process markdown then assets incrementally, clean up removed files
unless orphans are kept, drain the advisory channel, generate RSS when a feed
URL is set, and save the new cache.  `arrival` is the order in which the
concurrently produced advisory messages are received; the goroutine
completion order is unspecified, so it is a parameter of the run. -/
def tryIncrementalBuild (env : Env) (diskCache : Path → Except LoadErr CacheFile)
    (inputDir outputDir rssURL : Path) (fileSet : FileSetM) (keepOrphaned : Bool)
    (arrival : List SizeMsg) : Outcome :=
  match diskCache (getCachePath outputDir) with
  | .error _ => noCacheOutcome
  | .ok cache =>
    if cache.version ≠ 1 then noCacheOutcome
    else
      match incProcessMdFiles env inputDir outputDir ⟨cache, [], []⟩ ⟨[], []⟩ fileSet.markdownFiles with
      | .error e => failedOutcome e
      | .ok (b1, tr1) =>
        match incProcessAssetFiles env inputDir outputDir b1 tr1 fileSet.assetFiles with
        | .error e => failedOutcome e
        | .ok (b2, tr2) =>
          let removed := if keepOrphaned then [] else cleanupRemovedFiles outputDir cache.files b2.seen
          if rssURL ≠ [] ∧ env.rssOk = false then
            { completed := false, err := some .rssErr, persisted := none,
              processed := tr2.processed, sends := tr2.sends, removed := removed, drained := arrival }
          else if env.saveOk = false then
            { completed := false, err := some .saveCacheErr, persisted := none,
              processed := tr2.processed, sends := tr2.sends, removed := removed, drained := arrival }
          else
            { completed := true, err := none, persisted := some ⟨1, b2.newCacheFiles⟩,
              processed := tr2.processed, sends := tr2.sends, removed := removed, drained := arrival }

/-- createCacheFromFileSet models `CacheManager.CreateCacheFromFileSet`: a
fresh version-1 cache with one entry per discovered markdown file (output =
extension replaced by ".html") and one per asset (output = the path itself);
the mtime of each entry is the stat result or 0 on stat error (the inline
stat-else-zero logic coincides with getMtime).  The source always returns a
nil error. -/
def createCacheFromFileSet (env : Env) (inputDir : Path) (fileSet : FileSetM) : CacheFile :=
  let files1 := insertMapped
    (fun f => ⟨getMtime env (goJoin inputDir f), docOutputPath f⟩) [] fileSet.markdownFiles
  let files2 := insertMapped
    (fun f => ⟨getMtime env (goJoin inputDir f), f⟩) files1 fileSet.assetFiles
  ⟨1, files2⟩

/-- fullProcessAssets models `FullBuilder.ProcessAssetFiles`: copy every
asset unconditionally, aborting with an error naming the asset on failure. -/
def fullProcessAssets (env : Env) (inputDir outputDir : Path) :
    List Path → Except BuildErr (List Path)
  | [] => .ok []
  | relPath :: rest =>
    match processAssetFile env inputDir outputDir relPath with
    | .error _ => .error (.copyAssetErr relPath)
    | .ok _ =>
      match fullProcessAssets env inputDir outputDir rest with
      | .error e => .error e
      | .ok ps => .ok (relPath :: ps)

/-- fullProcessMds models `FullBuilder.ProcessMarkdownFiles`: process every
document unconditionally, collecting the advisory messages in program
order. -/
def fullProcessMds (env : Env) (inputDir outputDir : Path) :
    List Path → Except BuildErr (List Path × List SizeMsg)
  | [] => .ok ([], [])
  | relPath :: rest =>
    match processMarkdownFile env inputDir outputDir relPath with
    | .error e => .error e
    | .ok msgs =>
      match fullProcessMds env inputDir outputDir rest with
      | .error e => .error e
      | .ok (ps, ms) => .ok (relPath :: ps, msgs ++ ms)

/-- performFullBuild models `performFullBuild`: process assets, then
documents, drain the advisory channel, generate RSS when enabled, reconcile
the output tree unless orphans are kept, then build a fresh cache from the
file set and save it. -/
def performFullBuild (env : Env) (inputDir outputDir rssURL : Path) (fileSet : FileSetM)
    (keepOrphaned : Bool) (outTree : FsForest) (arrival : List SizeMsg) : Outcome :=
  match fullProcessAssets env inputDir outputDir fileSet.assetFiles with
  | .error e => failedOutcome e
  | .ok pa =>
    match fullProcessMds env inputDir outputDir fileSet.markdownFiles with
    | .error e => failedOutcome e
    | .ok (pm, sends) =>
      if rssURL ≠ [] ∧ env.rssOk = false then
        { completed := false, err := some .rssErr, persisted := none,
          processed := pa ++ pm, sends := sends, removed := [], drained := arrival }
      else
        let removed :=
          if keepOrphaned then [] else (cleanupOrphanedFiles fileSet rssURL outTree).removed
        if env.saveOk = false then
          { completed := false, err := some .saveCacheErr, persisted := none,
            processed := pa ++ pm, sends := sends, removed := removed, drained := arrival }
        else
          { completed := true, err := none,
            persisted := some (createCacheFromFileSet env inputDir fileSet),
            processed := pa ++ pm, sends := sends, removed := removed, drained := arrival }

/-- Strategy is the derived build decision. -/
inductive Strategy where
  | incremental
  | full
deriving DecidableEq

/-- buildSite models the strategy dispatch of `BuildSite` after discovery:
unless incremental is disabled, attempt the incremental build; an error
there aborts the whole build, completion ends it, and only the (false, nil)
fallback reaches the full build. -/
def buildSite (env : Env) (diskCache : Path → Except LoadErr CacheFile)
    (inputDir outputDir rssURL : Path) (fileSet : FileSetM)
    (noIncremental keepOrphaned : Bool) (outTree : FsForest) (arrival : List SizeMsg) :
    Strategy × Outcome :=
  if noIncremental then
    (.full, performFullBuild env inputDir outputDir rssURL fileSet keepOrphaned outTree arrival)
  else
    let attempt := tryIncrementalBuild env diskCache inputDir outputDir rssURL fileSet keepOrphaned arrival
    match attempt.err with
    | some _ => (.incremental, attempt)
    | none =>
      if attempt.completed then (.incremental, attempt)
      else (.full, performFullBuild env inputDir outputDir rssURL fileSet keepOrphaned outTree arrival)

/-- docFailsB tests whether processing a document fails in this
environment. -/
def docFailsB (env : Env) (inputDir outputDir relPath : Path) : Bool :=
  match processMarkdownFile env inputDir outputDir relPath with
  | .error _ => true
  | .ok _ => false

/-- envW is an everything-succeeds environment for concrete runs. -/
def envW : Env :=
  { statMtime := fun _ => some 5, readDocOk := fun _ => true, convertOk := fun _ => true,
    mkdirOk := fun _ => true, writeOk := fun _ => true, copyOk := fun _ => true,
    gzipReadOk := fun _ => true, rssOk := true, saveOk := true }

/-- cacheW is a prior cache holding one path no longer discovered. -/
def cacheW : CacheFile := ⟨1, [(pathOf "gone.md", ⟨2, pathOf "gone.html"⟩)]⟩

/-- loadW always loads cacheW. -/
def loadW : Path → Except LoadErr CacheFile := fun _ => .ok cacheW

/-- inW is a concrete input root. -/
def inW : Path := pathOf "in"

/-- outW is a concrete output root. -/
def outW : Path := pathOf "out"

/-- fsW is a concrete discovered file set. -/
def fsW : FileSetM := ⟨[pathOf "a.md"], [pathOf "s.css"]⟩

/-- fs8 is a two-document file set for the advisory-ordering runs. -/
def fs8 : FileSetM := ⟨[pathOf "a.md", pathOf "b.md"], []⟩

/-- msgA is the advisory message of the first document. -/
def msgA : SizeMsg := .gzipFor (mdDst outW (pathOf "a.md"))

/-- msgB is the advisory message of the second document. -/
def msgB : SizeMsg := .gzipFor (mdDst outW (pathOf "b.md"))

/-- envBad is an environment in which reading any document fails. -/
def envBad : Env := { envW with readDocOk := fun _ => false }

/-- envStatFail is an environment in which every stat call fails. -/
def envStatFail : Env := { envW with statMtime := fun _ => none }

/-- treeW is a concrete output tree with one plain and one hidden file. -/
def treeW : FsForest := .cons (.file (pathOf "junk.txt")) (.cons (.file (pathOf ".keep")) .nil)

theorem goExtRevAux_append_slash (l r : List Char) (acc : List Char) :
    goExtRevAux (l ++ '/' :: r) acc = goExtRevAux l acc := by
  induction l generalizing acc with
  | nil => simp [goExtRevAux]
  | cons c cs ih =>
    by_cases h : c = '/'
    · simp [goExtRevAux, h]
    · by_cases h2 : c = '.'
      · simp [goExtRevAux, h, h2]
      · simp [goExtRevAux, h, h2, ih]

/-- goExt of a joined path only depends on the part after the separator. -/
theorem goExt_goJoin (a b : Path) : goExt (goJoin a b) = goExt b := by
  unfold goExt goJoin
  have : (a ++ '/' :: b).reverse = b.reverse ++ '/' :: a.reverse := by
    simp
  rw [this, goExtRevAux_append_slash]

theorem goExtRevAux_length_le (l acc : List Char) :
    (goExtRevAux l acc).length ≤ l.length + acc.length := by
  induction l generalizing acc with
  | nil => simp [goExtRevAux]
  | cons c cs ih =>
    by_cases h : c = '/'
    · simp [goExtRevAux, h]
    · by_cases h2 : c = '.'
      · simp [goExtRevAux, h, h2]
        omega
      · simp only [goExtRevAux, h, h2, if_false]
        have := ih ('a' :: acc)
        have := ih (c :: acc)
        simp at this ⊢
        omega

/-- goExt is a suffix-shaped fragment no longer than the path itself. -/
theorem goExt_length_le (p : Path) : (goExt p).length ≤ p.length := by
  have := goExtRevAux_length_le p.reverse []
  simpa [goExt] using this

/-- stripExt distributes over goJoin: removing the extension of a joined path
removes it from the final component. -/
theorem stripExt_goJoin (a b : Path) :
    stripExt (goJoin a b) = goJoin a (stripExt b) := by
  unfold stripExt
  rw [goExt_goJoin]
  have hle := goExt_length_le b
  unfold goJoin
  rw [List.take_append_eq_append_take]
  have h1 : a.length + (1 + b.length) - (goExt b).length - a.length
      = 1 + (b.length - (goExt b).length) := by omega
  have h2 : (a ++ '/' :: b).length = a.length + (1 + b.length) := by simp; omega
  rw [List.take_of_length_le (by omega)]
  congr 1
  have h3 : (a ++ '/' :: b).length - (goExt b).length - a.length
      = 1 + (b.length - (goExt b).length) := by simp; omega
  rw [h3]
  show List.take (1 + (b.length - (goExt b).length)) ('/' :: b) = '/' :: b.take (b.length - (goExt b).length)
  rw [Nat.add_comm 1]
  rfl

theorem startsWithPath_append (a t : Path) : startsWithPath a (a ++ t) = true := by
  induction a with
  | nil => simp [startsWithPath]
  | cons c cs ih => simp [startsWithPath, ih]

/-- goRel inverts goJoin: relativising a joined path returns the joined
component. -/
theorem goRel_goJoin (a t : Path) : goRel a (goJoin a t) = some t := by
  unfold goRel goJoin
  have h : a ++ '/' :: t = (a ++ ['/']) ++ t := by simp
  rw [h, startsWithPath_append]
  have hlen : a.length + 1 = (a ++ ['/']).length := by simp
  simp only [if_true, hlen, List.drop_left]

/-- splitSlash never returns an empty list of components. -/
theorem splitSlash_ne_nil (p : Path) : splitSlash p ≠ [] := by
  cases p with
  | nil => simp [splitSlash]
  | cons c rest =>
    by_cases h : c = '/'
    · simp [splitSlash, h]
    · simp only [splitSlash, h, if_false]
      cases splitSlash rest with
      | nil => simp
      | cons a b => simp

/-- splitSlash splits at an explicit separator between two fragments. -/
theorem splitSlash_append (a b : Path) :
    splitSlash (a ++ '/' :: b) = splitSlash a ++ splitSlash b := by
  induction a with
  | nil => simp [splitSlash]
  | cons c cs ih =>
    by_cases h : c = '/'
    · simp [splitSlash, h, ih]
    · simp only [List.cons_append, splitSlash, h, if_false]
      simp only [List.append_eq]
      rw [ih]
      cases hcs : splitSlash cs with
      | nil => exact absurd hcs (splitSlash_ne_nil cs)
      | cons x xs => simp [hcs]

/-- hiddenAnyP over a separator splits into a disjunction. -/
theorem hiddenAnyP_append (a b : Path) :
    hiddenAnyP (a ++ '/' :: b) = (hiddenAnyP a || hiddenAnyP b) := by
  unfold hiddenAnyP
  rw [splitSlash_append, List.any_append]

theorem hiddenAnyP_nil : hiddenAnyP [] = false := by
  simp [hiddenAnyP, splitSlash, startsDot]

/-- splitSlash of a separator-free name is that single component. -/
theorem splitSlash_noSlash (name : Path) (h : noSlashName name = true) :
    splitSlash name = [name] := by
  induction name with
  | nil => simp [splitSlash]
  | cons c cs ih =>
    simp only [noSlashName, List.any_cons, Bool.not_eq_true', Bool.or_eq_false_iff] at h
    obtain ⟨h1, h2⟩ := h
    have hc : ¬ c = '/' := by
      intro hc; rw [hc] at h1; simp at h1
    have := ih (by simp [noSlashName, h2])
    simp only [splitSlash, hc, if_false, this]

/-- hiddenAnyP of a separator-free name is just its leading-dot test. -/
theorem hiddenAnyP_noSlash (name : Path) (h : noSlashName name = true) :
    hiddenAnyP name = startsDot name := by
  simp [hiddenAnyP, splitSlash_noSlash name h]

/-- A path containing a separator is not the literal ".". -/
theorem joined_ne_dot (a b : Path) : goJoin a b ≠ ['.'] := by
  unfold goJoin
  intro h
  have : '/' ∈ a ++ '/' :: b := by simp
  rw [h] at this
  simp at this

/-- isHiddenFile of a joined path when the relevant parts are known. -/
theorem isHiddenFile_goJoin (a b : Path) :
    isHiddenFile (goJoin a b) = (hiddenAnyP a || hiddenAnyP b) := by
  unfold isHiddenFile
  rw [if_neg (joined_ne_dot a b)]
  exact hiddenAnyP_append a b

mutual
/-- Every file below a nonempty prefix extends that prefix by a separator. -/
theorem nodeFiles_shape (pre : Path) (hpre : pre ≠ []) (n : FsNode) (p : Path)
    (hp : p ∈ nodeFiles pre n) : ∃ t, p = pre ++ '/' :: t := by
  cases n with
  | file name =>
    refine ⟨name, ?_⟩
    simp only [nodeFiles, joinRel, if_neg hpre, List.mem_singleton] at hp
    exact hp
  | dir name children =>
    simp only [nodeFiles] at hp
    have hjoin : joinRel pre name = pre ++ '/' :: name := by simp [joinRel, hpre]
    have hne : joinRel pre name ≠ [] := by simp [hjoin]
    obtain ⟨t, ht⟩ := forestFiles_shape (joinRel pre name) hne children p hp
    exact ⟨name ++ '/' :: t, by simp [ht, hjoin]⟩

/-- Every file in a forest below a nonempty prefix extends that prefix. -/
theorem forestFiles_shape (pre : Path) (hpre : pre ≠ []) (f : FsForest) (p : Path)
    (hp : p ∈ forestFiles pre f) : ∃ t, p = pre ++ '/' :: t := by
  cases f with
  | nil => simp [forestFiles] at hp
  | cons n t =>
    simp only [forestFiles, List.mem_append] at hp
    cases hp with
    | inl h => exact nodeFiles_shape pre hpre n p h
    | inr h => exact forestFiles_shape pre hpre t p h
end

/-- Below a hidden nonempty prefix every file path has a hidden component. -/
theorem hiddenAnyP_of_mem_forestFiles (pre : Path) (hpre : pre ≠ [])
    (hh : hiddenAnyP pre = true) (f : FsForest) (p : Path)
    (hp : p ∈ forestFiles pre f) : hiddenAnyP p = true := by
  obtain ⟨t, ht⟩ := forestFiles_shape pre hpre f p hp
  rw [ht, hiddenAnyP_append, hh]
  rfl

/-- Below a hidden nonempty prefix every file path is hidden. -/
theorem isHiddenFile_of_mem_forestFiles (pre : Path) (hpre : pre ≠ [])
    (hh : hiddenAnyP pre = true) (f : FsForest) (p : Path)
    (hp : p ∈ forestFiles pre f) : isHiddenFile p = true := by
  obtain ⟨t, ht⟩ := forestFiles_shape pre hpre f p hp
  rw [ht]
  show isHiddenFile (goJoin pre t) = true
  rw [isHiddenFile_goJoin, hh]
  rfl

/-- goExt only depends on the final component of a relative path. -/
theorem goExt_joinRel (pre name : Path) : goExt (joinRel pre name) = goExt name := by
  unfold joinRel
  by_cases h : pre = []
  · simp [h]
  · rw [if_neg h]
    exact goExt_goJoin pre name

/-- classifyFile answers "markdown" exactly on the document extensions. -/
theorem classifyFile_eq_markdown (name : Path) :
    (classifyFile name = "markdown") ↔ isDocExt (goExt name) = true := by
  cases h : isDocExt (goExt name) <;> simp only [classifyFile, h] <;> decide

/-- A hidden path is nonempty and has a hidden component. -/
theorem isHiddenFile_elim (p : Path) (h : isHiddenFile p = true) :
    p ≠ [] ∧ hiddenAnyP p = true := by
  unfold isHiddenFile at h
  by_cases hd : p = ['.']
  · rw [if_pos hd] at h
    cases h
  · rw [if_neg hd] at h
    refine ⟨?_, h⟩
    intro hnil
    rw [hnil] at h
    rw [hiddenAnyP_nil] at h
    cases h

mutual
/-- Discovery at a node produces exactly the non-hidden files of the subtree,
split by the document-extension test, preserving walk order. -/
theorem discoverNode_eq_filter (pre : Path) (n : FsNode) :
    discoverNode pre n =
      ⟨(nodeFiles pre n).filter okMd, (nodeFiles pre n).filter okAsset⟩ := by
  cases n with
  | file name =>
    show (if isHiddenFile (joinRel pre name) then (⟨[], []⟩ : FileSetM)
      else if classifyFile name = "markdown" then ⟨[joinRel pre name], []⟩
      else ⟨[], [joinRel pre name]⟩) = _
    by_cases hh : isHiddenFile (joinRel pre name) = true
    · rw [if_pos hh]
      simp [nodeFiles, okMd, okAsset, List.filter, hh]
    · simp only [Bool.not_eq_true] at hh
      rw [if_neg (by simp [hh])]
      by_cases hc : classifyFile name = "markdown"
      · rw [if_pos hc]
        have hd : isDocExt (goExt (joinRel pre name)) = true := by
          rw [goExt_joinRel]
          exact (classifyFile_eq_markdown name).mp hc
        simp [nodeFiles, okMd, okAsset, List.filter, hh, hd]
      · rw [if_neg hc]
        have hd : isDocExt (goExt (joinRel pre name)) = false := by
          rw [goExt_joinRel]
          by_cases h : isDocExt (goExt name) = true
          · exact absurd ((classifyFile_eq_markdown name).mpr h) hc
          · simpa using h
        simp [nodeFiles, okMd, okAsset, List.filter, hh, hd]
  | dir name children =>
    show (if isHiddenFile (joinRel pre name) then (⟨[], []⟩ : FileSetM)
      else discoverForest (joinRel pre name) children) = _
    by_cases hh : isHiddenFile (joinRel pre name) = true
    · rw [if_pos hh]
      obtain ⟨hne, hany⟩ := isHiddenFile_elim _ hh
      have hall : ∀ p ∈ forestFiles (joinRel pre name) children, isHiddenFile p = true :=
        fun p hp => isHiddenFile_of_mem_forestFiles _ hne hany children p hp
      have h1 : (nodeFiles pre (.dir name children)).filter okMd = [] := by
        rw [List.filter_eq_nil_iff]
        intro p hp
        have := hall p hp
        simp [okMd, this]
      have h2 : (nodeFiles pre (.dir name children)).filter okAsset = [] := by
        rw [List.filter_eq_nil_iff]
        intro p hp
        have := hall p hp
        simp [okAsset, this]
      rw [h1, h2]
    · simp only [Bool.not_eq_true] at hh
      rw [if_neg (by simp [hh])]
      exact discoverForest_eq_filter (joinRel pre name) children

/-- Discovery of a forest is the filtered file list of the forest. -/
theorem discoverForest_eq_filter (pre : Path) (f : FsForest) :
    discoverForest pre f =
      ⟨(forestFiles pre f).filter okMd, (forestFiles pre f).filter okAsset⟩ := by
  cases f with
  | nil => rfl
  | cons n t =>
    show appendFS (discoverNode pre n) (discoverForest pre t) = _
    rw [discoverNode_eq_filter, discoverForest_eq_filter]
    simp [appendFS, forestFiles, List.filter_append, nodeFiles]
end

/-- The cache file name contains no separator. -/
theorem cacheName_noSlash : noSlashName cacheName = true := by decide

/-- A joined relative path under a nonempty parent is never the cache name. -/
theorem joinRel_ne_cacheName (pre name : Path) (hpre : pre ≠ []) :
    joinRel pre name ≠ cacheName := by
  rw [joinRel, if_neg hpre]
  intro h
  have hmem : '/' ∈ pre ++ '/' :: name := by simp
  rw [h] at hmem
  revert hmem
  decide

/-- A skipped walk entry has a dotted name: the ".colade-cache" comparison
can only fire at the top level, where the name itself begins with ".". -/
theorem skip_implies_startsDot (pre name : Path)
    (h : joinRel pre name = cacheName ∨ startsDot name = true) :
    startsDot name = true := by
  cases h with
  | inr h => exact h
  | inl h =>
    by_cases hpre : pre = []
    · rw [joinRel, if_pos hpre] at h
      rw [h]
      decide
    · exact absurd h (joinRel_ne_cacheName pre name hpre)

/-- hiddenAnyP of a joined relative path splits along the join. -/
theorem hiddenAnyP_joinRel (pre name : Path) :
    hiddenAnyP (joinRel pre name) = (hiddenAnyP pre || hiddenAnyP name) := by
  unfold joinRel
  by_cases h : pre = []
  · simp [h, hiddenAnyP_nil]
  · rw [if_neg h]
    exact hiddenAnyP_append pre name

mutual
/-- Full-build cleanup at a node removes exactly the files of the subtree
that have no hidden component and are not expected, and tests exactly the
files with no hidden component, provided the walked prefix is clean and all
entry names are separator-free. -/
theorem cleanNode_eq_filter (fs : FileSetM) (rssURL : Path) (pre : Path)
    (hpre : hiddenAnyP pre = false) (n : FsNode) (hn : nodeHasNames n = true) :
    cleanNode fs rssURL pre n =
      ⟨(nodeFiles pre n).filter (fun q => !hiddenAnyP q && !isExpectedFile fs rssURL q),
       (nodeFiles pre n).filter (fun q => !hiddenAnyP q)⟩ := by
  cases n with
  | file name =>
    have hns : noSlashName name = true := hn
    have hrel : hiddenAnyP (joinRel pre name) = startsDot name := by
      rw [hiddenAnyP_joinRel, hpre, hiddenAnyP_noSlash name hns]
      rfl
    show (if joinRel pre name = cacheName ∨ startsDot name = true then (⟨[], []⟩ : CleanResult)
      else if isExpectedFile fs rssURL (joinRel pre name) then ⟨[], [joinRel pre name]⟩
      else ⟨[joinRel pre name], [joinRel pre name]⟩) = _
    by_cases hskip : joinRel pre name = cacheName ∨ startsDot name = true
    · rw [if_pos hskip]
      have hdot := skip_implies_startsDot pre name hskip
      have : hiddenAnyP (joinRel pre name) = true := by rw [hrel, hdot]
      simp [nodeFiles, List.filter, this]
    · rw [if_neg hskip]
      have hdot : startsDot name = false := by
        by_cases h : startsDot name = true
        · exact absurd (Or.inr h) hskip
        · simpa using h
      have hclean : hiddenAnyP (joinRel pre name) = false := by rw [hrel, hdot]
      by_cases hexp : isExpectedFile fs rssURL (joinRel pre name) = true
      · rw [if_pos hexp]
        simp [nodeFiles, List.filter, hclean, hexp]
      · simp only [Bool.not_eq_true] at hexp
        rw [if_neg (by simp [hexp])]
        simp [nodeFiles, List.filter, hclean, hexp]
  | dir name children =>
    have hns : noSlashName name = true := by
      have := hn
      simp only [nodeHasNames, Bool.and_eq_true] at this
      exact this.1
    have hch : forestHasNames children = true := by
      have := hn
      simp only [nodeHasNames, Bool.and_eq_true] at this
      exact this.2
    have hrel : hiddenAnyP (joinRel pre name) = startsDot name := by
      rw [hiddenAnyP_joinRel, hpre, hiddenAnyP_noSlash name hns]
      rfl
    show (if joinRel pre name = cacheName ∨ startsDot name = true then (⟨[], []⟩ : CleanResult)
      else cleanForest fs rssURL (joinRel pre name) children) = _
    by_cases hskip : joinRel pre name = cacheName ∨ startsDot name = true
    · rw [if_pos hskip]
      have hdot := skip_implies_startsDot pre name hskip
      have hne : joinRel pre name ≠ [] := by
        unfold joinRel
        by_cases h : pre = []
        · rw [if_pos h]
          intro hnil
          rw [hnil] at hdot
          cases hdot
        · rw [if_neg h]
          simp [h]
      have hhid : hiddenAnyP (joinRel pre name) = true := by rw [hrel, hdot]
      have hall : ∀ q ∈ forestFiles (joinRel pre name) children, hiddenAnyP q = true :=
        fun q hq => hiddenAnyP_of_mem_forestFiles _ hne hhid children q hq
      have h1 : (nodeFiles pre (.dir name children)).filter
          (fun q => !hiddenAnyP q && !isExpectedFile fs rssURL q) = [] := by
        rw [List.filter_eq_nil_iff]
        intro q hq
        have := hall q hq
        simp [this]
      have h2 : (nodeFiles pre (.dir name children)).filter
          (fun q => !hiddenAnyP q) = [] := by
        rw [List.filter_eq_nil_iff]
        intro q hq
        have := hall q hq
        simp [this]
      rw [h1, h2]
    · rw [if_neg hskip]
      have hdot : startsDot name = false := by
        by_cases h : startsDot name = true
        · exact absurd (Or.inr h) hskip
        · simpa using h
      have hclean : hiddenAnyP (joinRel pre name) = false := by rw [hrel, hdot]
      exact cleanForest_eq_filter fs rssURL (joinRel pre name) hclean children hch

/-- Full-build cleanup over a forest, as a filter of its raw file list. -/
theorem cleanForest_eq_filter (fs : FileSetM) (rssURL : Path) (pre : Path)
    (hpre : hiddenAnyP pre = false) (f : FsForest) (hf : forestHasNames f = true) :
    cleanForest fs rssURL pre f =
      ⟨(forestFiles pre f).filter (fun q => !hiddenAnyP q && !isExpectedFile fs rssURL q),
       (forestFiles pre f).filter (fun q => !hiddenAnyP q)⟩ := by
  cases f with
  | nil => rfl
  | cons n t =>
    have hn : nodeHasNames n = true := by
      have := hf
      simp only [forestHasNames, Bool.and_eq_true] at this
      exact this.1
    have ht : forestHasNames t = true := by
      have := hf
      simp only [forestHasNames, Bool.and_eq_true] at this
      exact this.2
    show appendCR (cleanNode fs rssURL pre n) (cleanForest fs rssURL pre t) = _
    rw [cleanNode_eq_filter fs rssURL pre hpre n hn, cleanForest_eq_filter fs rssURL pre hpre t ht]
    simp [appendCR, forestFiles, List.filter_append]
end

theorem findEntry_insertEntry_self (m : CacheEntries) (p : Path) (e : CacheFileEntry) :
    findEntry (insertEntry m p e) p = some e := by
  induction m with
  | nil => simp [insertEntry, findEntry]
  | cons kv rest ih =>
    obtain ⟨k, v⟩ := kv
    by_cases h : k = p
    · simp [insertEntry, h, findEntry]
    · simp [insertEntry, h, findEntry, ih]

theorem findEntry_insertEntry_ne (m : CacheEntries) (p q : Path) (e : CacheFileEntry)
    (h : p ≠ q) : findEntry (insertEntry m p e) q = findEntry m q := by
  induction m with
  | nil => simp [insertEntry, findEntry, h]
  | cons kv rest ih =>
    obtain ⟨k, v⟩ := kv
    by_cases hk : k = p
    · subst hk
      simp [insertEntry, findEntry, h, ih]
    · by_cases hq : k = q
      · subst hq
        simp [insertEntry, hk, findEntry]
      · simp [insertEntry, hk, findEntry, hq, ih]

theorem findEntry_insertMapped_of_not_mem (mk : Path → CacheFileEntry)
    (acc : CacheEntries) (l : List Path) (q : Path) (h : q ∉ l) :
    findEntry (insertMapped mk acc l) q = findEntry acc q := by
  induction l generalizing acc with
  | nil => rfl
  | cons f rest ih =>
    simp only [List.mem_cons, not_or] at h
    show findEntry (insertMapped mk (insertEntry acc f (mk f)) rest) q = _
    rw [ih _ h.2, findEntry_insertEntry_ne _ _ _ _ (fun hfq => h.1 hfq.symm)]

theorem findEntry_insertMapped_of_mem (mk : Path → CacheFileEntry)
    (acc : CacheEntries) (l : List Path) (q : Path) (hnd : l.Nodup) (h : q ∈ l) :
    findEntry (insertMapped mk acc l) q = some (mk q) := by
  induction l generalizing acc with
  | nil => cases h
  | cons f rest ih =>
    show findEntry (insertMapped mk (insertEntry acc f (mk f)) rest) q = _
    rcases List.mem_cons.mp h with hq | hq
    · subst hq
      rw [findEntry_insertMapped_of_not_mem mk _ rest q (List.nodup_cons.mp hnd).1]
      exact findEntry_insertEntry_self acc q (mk q)
    · exact ih _ (List.nodup_cons.mp hnd).2 hq

/-- The processor's destination is the derived output path joined beneath
the output root. -/
theorem mdDst_eq_goJoin (outputDir relPath : Path) :
    mdDst outputDir relPath = goJoin outputDir (docOutputPath relPath) := by
  unfold mdDst
  rw [stripExt_goJoin]
  simp [goJoin, docOutputPath]

/-- Relativising the processor's destination recovers the derived output
path, so the `filepath.Rel` call in the loops cannot fail. -/
theorem goRel_mdDst (outputDir relPath : Path) :
    goRel outputDir (mdDst outputDir relPath) = some (docOutputPath relPath) := by
  rw [mdDst_eq_goJoin, goRel_goJoin]

/-- A successful processMarkdownFile sends the gzip report iff the written
output can be read back. -/
theorem processMarkdownFile_ok_msgs (env : Env) (inputDir outputDir relPath : Path)
    (msgs : List SizeMsg) (h : processMarkdownFile env inputDir outputDir relPath = .ok msgs) :
    msgs = (if env.gzipReadOk (mdDst outputDir relPath)
            then [SizeMsg.gzipFor (mdDst outputDir relPath)] else []) := by
  simp only [processMarkdownFile] at h
  rw [show stripExt (goJoin outputDir relPath) ++ htmlExt = mdDst outputDir relPath from rfl] at h
  split at h
  · cases h
  · split at h
    · cases h
    · split at h
      · cases h
      · split at h
        · cases h
        · injection h with h
          exact h.symm

/-- A failing processMarkdownFile produces an error naming relPath. -/
theorem processMarkdownFile_error_names (env : Env) (inputDir outputDir relPath : Path)
    (e : BuildErr) (h : processMarkdownFile env inputDir outputDir relPath = .error e) :
    e.offendingPath = some relPath := by
  simp only [processMarkdownFile] at h
  split at h
  · injection h with h
    rw [← h]
    rfl
  · split at h
    · injection h with h
      rw [← h]
      rfl
    · split at h
      · injection h with h
        rw [← h]
        rfl
      · split at h
        · injection h with h
          rw [← h]
          rfl
        · cases h

/-- incStepMd, rewritten through the always-successful goRel. -/
theorem incStepMd_eq (env : Env) (inputDir outputDir : Path) (b : IncBuilder)
    (tr : BuildTrace) (relPath : Path) :
    incStepMd env inputDir outputDir b tr relPath =
      if entryChanged env b.cache inputDir relPath then
        match processMarkdownFile env inputDir outputDir relPath with
        | .error e => .error e
        | .ok msgs =>
          .ok (⟨b.cache, insertEntry b.newCacheFiles relPath (mdEntry env inputDir relPath),
                b.seen ++ [relPath]⟩,
               ⟨tr.processed ++ [relPath], tr.sends ++ msgs⟩)
      else
        .ok (⟨b.cache, insertEntry b.newCacheFiles relPath (mdEntry env inputDir relPath),
              b.seen ++ [relPath]⟩,
             ⟨tr.processed, tr.sends ++ [.empty]⟩) := by
  unfold incStepMd
  by_cases hch : entryChanged env b.cache inputDir relPath = true
  · simp only [hch, if_true]
    cases hp : processMarkdownFile env inputDir outputDir relPath with
    | error e => simp
    | ok msgs => simp [goRel_mdDst, mdEntry]
  · simp only [Bool.not_eq_true] at hch
    simp [hch, goRel_mdDst, mdEntry]

/-- incStepAsset, rewritten through the always-successful goRel. -/
theorem incStepAsset_eq (env : Env) (inputDir outputDir : Path) (b : IncBuilder)
    (tr : BuildTrace) (relPath : Path) :
    incStepAsset env inputDir outputDir b tr relPath =
      if entryChanged env b.cache inputDir relPath then
        if env.copyOk (goJoin inputDir relPath) then
          .ok (⟨b.cache, insertEntry b.newCacheFiles relPath (assetEntry env inputDir relPath),
                b.seen ++ [relPath]⟩,
               ⟨tr.processed ++ [relPath], tr.sends⟩)
        else .error (.copyAssetErr relPath)
      else
        .ok (⟨b.cache, insertEntry b.newCacheFiles relPath (assetEntry env inputDir relPath),
              b.seen ++ [relPath]⟩,
             tr) := by
  unfold incStepAsset processAssetFile
  by_cases hch : entryChanged env b.cache inputDir relPath = true
  · simp only [hch, if_true]
    by_cases hc : env.copyOk (goJoin inputDir relPath) = true
    · simp [hc, goRel_goJoin, assetEntry]
    · simp only [Bool.not_eq_true] at hc
      simp [hc]
  · simp only [Bool.not_eq_true] at hch
    simp [hch, goRel_goJoin, assetEntry]

/-- A successful incremental markdown loop: the prior cache is untouched,
one new entry is inserted per path in order, every path is marked seen,
exactly the changed paths are processed, and the channel receives one
message group per path in discovery order. -/
theorem incProcessMdFiles_ok (env : Env) (inputDir outputDir : Path) (l : List Path)
    (b : IncBuilder) (tr : BuildTrace) (b' : IncBuilder) (tr' : BuildTrace)
    (h : incProcessMdFiles env inputDir outputDir b tr l = .ok (b', tr')) :
    b'.cache = b.cache ∧
    b'.newCacheFiles = insertMapped (fun p => mdEntry env inputDir p) b.newCacheFiles l ∧
    b'.seen = b.seen ++ l ∧
    tr'.processed = tr.processed ++ l.filter (fun p => entryChanged env b.cache inputDir p) ∧
    tr'.sends = tr.sends ++ (l.map (fun p => mdSendFor env b.cache inputDir outputDir p)).flatten := by
  induction l generalizing b tr with
  | nil =>
    simp only [incProcessMdFiles] at h
    injection h with h
    have h1 : b = b' := congrArg Prod.fst h
    have h2 : tr = tr' := congrArg Prod.snd h
    subst h1; subst h2
    simp [insertMapped]
  | cons p ps ih =>
    simp only [incProcessMdFiles, incStepMd_eq] at h
    by_cases hch : entryChanged env b.cache inputDir p = true
    · rw [if_pos hch] at h
      cases hp : processMarkdownFile env inputDir outputDir p with
      | error e =>
        rw [hp] at h
        cases h
      | ok msgs =>
        rw [hp] at h
        obtain ⟨hc, hn, hs, hpr, hsd⟩ := ih _ _ h
        simp only at hc hn hs hpr hsd
        refine ⟨hc, ?_, ?_, ?_, ?_⟩
        · rw [hn]; rfl
        · rw [hs]; simp
        · rw [hpr]
          simp [List.filter_cons, hch]
        · rw [hsd]
          have hmsgs := processMarkdownFile_ok_msgs env inputDir outputDir p msgs hp
          simp [mdSendFor, hch, ← hmsgs]
    · simp only [Bool.not_eq_true] at hch
      rw [if_neg (by simp [hch])] at h
      obtain ⟨hc, hn, hs, hpr, hsd⟩ := ih _ _ h
      simp only at hc hn hs hpr hsd
      refine ⟨hc, ?_, ?_, ?_, ?_⟩
      · rw [hn]; rfl
      · rw [hs]; simp
      · rw [hpr]
        simp [List.filter_cons, hch]
      · rw [hsd]
        simp [mdSendFor, hch]

/-- A failing incremental markdown loop fails on some changed path of the
list, with that path's processing error. -/
theorem incProcessMdFiles_error (env : Env) (inputDir outputDir : Path) (l : List Path)
    (b : IncBuilder) (tr : BuildTrace) (e : BuildErr)
    (h : incProcessMdFiles env inputDir outputDir b tr l = .error e) :
    ∃ p ∈ l, entryChanged env b.cache inputDir p = true ∧
      processMarkdownFile env inputDir outputDir p = .error e := by
  induction l generalizing b tr with
  | nil => cases h
  | cons p ps ih =>
    simp only [incProcessMdFiles, incStepMd_eq] at h
    by_cases hch : entryChanged env b.cache inputDir p = true
    · rw [if_pos hch] at h
      cases hp : processMarkdownFile env inputDir outputDir p with
      | error e2 =>
        rw [hp] at h
        injection h with h
        exact ⟨p, List.mem_cons_self p ps, hch, by rw [hp, h]⟩
      | ok msgs =>
        rw [hp] at h
        obtain ⟨q, hq, hqc, hqe⟩ := ih _ _ h
        exact ⟨q, List.mem_cons_of_mem p hq, hqc, hqe⟩
    · simp only [Bool.not_eq_true] at hch
      rw [if_neg (by simp [hch])] at h
      obtain ⟨q, hq, hqc, hqe⟩ := ih _ _ h
      exact ⟨q, List.mem_cons_of_mem p hq, hqc, hqe⟩

/-- A successful incremental asset loop: as for markdown, but without
channel traffic. -/
theorem incProcessAssetFiles_ok (env : Env) (inputDir outputDir : Path) (l : List Path)
    (b : IncBuilder) (tr : BuildTrace) (b' : IncBuilder) (tr' : BuildTrace)
    (h : incProcessAssetFiles env inputDir outputDir b tr l = .ok (b', tr')) :
    b'.cache = b.cache ∧
    b'.newCacheFiles = insertMapped (fun p => assetEntry env inputDir p) b.newCacheFiles l ∧
    b'.seen = b.seen ++ l ∧
    tr'.processed = tr.processed ++ l.filter (fun p => entryChanged env b.cache inputDir p) ∧
    tr'.sends = tr.sends := by
  induction l generalizing b tr with
  | nil =>
    simp only [incProcessAssetFiles] at h
    injection h with h
    have h1 : b = b' := congrArg Prod.fst h
    have h2 : tr = tr' := congrArg Prod.snd h
    subst h1; subst h2
    simp [insertMapped]
  | cons p ps ih =>
    simp only [incProcessAssetFiles, incStepAsset_eq] at h
    by_cases hch : entryChanged env b.cache inputDir p = true
    · rw [if_pos hch] at h
      by_cases hc : env.copyOk (goJoin inputDir p) = true
      · rw [if_pos hc] at h
        obtain ⟨hcc, hn, hs, hpr, hsd⟩ := ih _ _ h
        simp only at hcc hn hs hpr hsd
        refine ⟨hcc, ?_, ?_, ?_, ?_⟩
        · rw [hn]; rfl
        · rw [hs]; simp
        · rw [hpr]
          simp [List.filter_cons, hch]
        · rw [hsd]
      · simp only [Bool.not_eq_true] at hc
        rw [if_neg (by simp [hc])] at h
        cases h
    · simp only [Bool.not_eq_true] at hch
      rw [if_neg (by simp [hch])] at h
      obtain ⟨hcc, hn, hs, hpr, hsd⟩ := ih _ _ h
      simp only at hcc hn hs hpr hsd
      refine ⟨hcc, ?_, ?_, ?_, ?_⟩
      · rw [hn]; rfl
      · rw [hs]; simp
      · rw [hpr]
        simp [List.filter_cons, hch]
      · rw [hsd]

/-- A failing incremental asset loop fails on some changed asset whose copy
fails, with the wrapped error naming it. -/
theorem incProcessAssetFiles_error (env : Env) (inputDir outputDir : Path) (l : List Path)
    (b : IncBuilder) (tr : BuildTrace) (e : BuildErr)
    (h : incProcessAssetFiles env inputDir outputDir b tr l = .error e) :
    ∃ p ∈ l, entryChanged env b.cache inputDir p = true ∧
      env.copyOk (goJoin inputDir p) = false ∧ e = .copyAssetErr p := by
  induction l generalizing b tr with
  | nil => cases h
  | cons p ps ih =>
    simp only [incProcessAssetFiles, incStepAsset_eq] at h
    by_cases hch : entryChanged env b.cache inputDir p = true
    · rw [if_pos hch] at h
      by_cases hc : env.copyOk (goJoin inputDir p) = true
      · rw [if_pos hc] at h
        obtain ⟨q, hq, hqc, hqe⟩ := ih _ _ h
        exact ⟨q, List.mem_cons_of_mem p hq, hqc, hqe⟩
      · simp only [Bool.not_eq_true] at hc
        rw [if_neg (by simp [hc])] at h
        injection h with h
        exact ⟨p, List.mem_cons_self p ps, hch, hc, h.symm⟩
    · simp only [Bool.not_eq_true] at hch
      rw [if_neg (by simp [hch])] at h
      obtain ⟨q, hq, hqc, hqe⟩ := ih _ _ h
      exact ⟨q, List.mem_cons_of_mem p hq, hqc, hqe⟩

/-- A successful markdown loop implies no changed file of the list fails. -/
theorem incProcessMdFiles_ok_no_failure (env : Env) (inputDir outputDir : Path) (l : List Path)
    (b : IncBuilder) (tr : BuildTrace) (b' : IncBuilder) (tr' : BuildTrace)
    (h : incProcessMdFiles env inputDir outputDir b tr l = .ok (b', tr'))
    (p : Path) (hp : p ∈ l) (hch : entryChanged env b.cache inputDir p = true)
    (e : BuildErr) : processMarkdownFile env inputDir outputDir p ≠ .error e := by
  induction l generalizing b tr with
  | nil => cases hp
  | cons q qs ih =>
    simp only [incProcessMdFiles, incStepMd_eq] at h
    by_cases hq : entryChanged env b.cache inputDir q = true
    · rw [if_pos hq] at h
      cases hpq : processMarkdownFile env inputDir outputDir q with
      | error e2 =>
        rw [hpq] at h
        cases h
      | ok msgs =>
        rw [hpq] at h
        rcases List.mem_cons.mp hp with rfl | hmem
        · intro hcontra
          rw [hpq] at hcontra
          cases hcontra
        · exact ih _ _ h hmem hch
    · simp only [Bool.not_eq_true] at hq
      rw [if_neg (by simp [hq])] at h
      rcases List.mem_cons.mp hp with rfl | hmem
      · rw [hch] at hq
        cases hq
      · exact ih _ _ h hmem hch

/-- A successful asset loop implies no changed asset of the list fails to
copy. -/
theorem incProcessAssetFiles_ok_no_failure (env : Env) (inputDir outputDir : Path) (l : List Path)
    (b : IncBuilder) (tr : BuildTrace) (b' : IncBuilder) (tr' : BuildTrace)
    (h : incProcessAssetFiles env inputDir outputDir b tr l = .ok (b', tr'))
    (p : Path) (hp : p ∈ l) (hch : entryChanged env b.cache inputDir p = true) :
    env.copyOk (goJoin inputDir p) = true := by
  induction l generalizing b tr with
  | nil => cases hp
  | cons q qs ih =>
    simp only [incProcessAssetFiles, incStepAsset_eq] at h
    by_cases hq : entryChanged env b.cache inputDir q = true
    · rw [if_pos hq] at h
      by_cases hc : env.copyOk (goJoin inputDir q) = true
      · rw [if_pos hc] at h
        rcases List.mem_cons.mp hp with rfl | hmem
        · exact hc
        · exact ih _ _ h hmem hch
      · simp only [Bool.not_eq_true] at hc
        rw [if_neg (by simp [hc])] at h
        cases h
    · simp only [Bool.not_eq_true] at hq
      rw [if_neg (by simp [hq])] at h
      rcases List.mem_cons.mp hp with rfl | hmem
      · rw [hch] at hq
        cases hq
      · exact ih _ _ h hmem hch

/-- tryIncrementalBuild reports (false, nil) whenever no cache loads with
version 1, regardless of why the load failed. -/
theorem tryIncrementalBuild_noCache (env : Env) (diskCache : Path → Except LoadErr CacheFile)
    (inputDir outputDir rssURL : Path) (fileSet : FileSetM) (keepOrphaned : Bool)
    (arrival : List SizeMsg)
    (h : ∀ c, diskCache (getCachePath outputDir) = .ok c → c.version ≠ 1) :
    tryIncrementalBuild env diskCache inputDir outputDir rssURL fileSet keepOrphaned arrival
      = noCacheOutcome := by
  unfold tryIncrementalBuild
  cases hload : diskCache (getCachePath outputDir) with
  | error e => rfl
  | ok cache =>
    have hv := h cache hload
    simp [hv]

/-- tryIncrementalBuild after both processing loops succeed: the tail of the
run written out. -/
theorem tryIncrementalBuild_run (env : Env) (diskCache : Path → Except LoadErr CacheFile)
    (inputDir outputDir rssURL : Path) (fileSet : FileSetM) (keepOrphaned : Bool)
    (arrival : List SizeMsg) (cache : CacheFile) (b1 b2 : IncBuilder) (tr1 tr2 : BuildTrace)
    (hload : diskCache (getCachePath outputDir) = .ok cache) (hv : cache.version = 1)
    (hmd : incProcessMdFiles env inputDir outputDir ⟨cache, [], []⟩ ⟨[], []⟩
      fileSet.markdownFiles = .ok (b1, tr1))
    (ha : incProcessAssetFiles env inputDir outputDir b1 tr1 fileSet.assetFiles = .ok (b2, tr2)) :
    tryIncrementalBuild env diskCache inputDir outputDir rssURL fileSet keepOrphaned arrival =
      (let removed := if keepOrphaned then [] else cleanupRemovedFiles outputDir cache.files b2.seen
       if rssURL ≠ [] ∧ env.rssOk = false then
         { completed := false, err := some .rssErr, persisted := none,
           processed := tr2.processed, sends := tr2.sends, removed := removed, drained := arrival }
       else if env.saveOk = false then
         { completed := false, err := some .saveCacheErr, persisted := none,
           processed := tr2.processed, sends := tr2.sends, removed := removed, drained := arrival }
       else
         { completed := true, err := none, persisted := some ⟨1, b2.newCacheFiles⟩,
           processed := tr2.processed, sends := tr2.sends, removed := removed,
           drained := arrival }) := by
  unfold tryIncrementalBuild
  simp only [hload]
  rw [if_neg (by simp [hv])]
  simp only [hmd, ha]

/-- tryIncrementalBuild when the markdown loop fails. -/
theorem tryIncrementalBuild_mdError (env : Env) (diskCache : Path → Except LoadErr CacheFile)
    (inputDir outputDir rssURL : Path) (fileSet : FileSetM) (keepOrphaned : Bool)
    (arrival : List SizeMsg) (cache : CacheFile) (e : BuildErr)
    (hload : diskCache (getCachePath outputDir) = .ok cache) (hv : cache.version = 1)
    (hmd : incProcessMdFiles env inputDir outputDir ⟨cache, [], []⟩ ⟨[], []⟩
      fileSet.markdownFiles = .error e) :
    tryIncrementalBuild env diskCache inputDir outputDir rssURL fileSet keepOrphaned arrival
      = failedOutcome e := by
  unfold tryIncrementalBuild
  simp only [hload]
  rw [if_neg (by simp [hv])]
  simp only [hmd]

/-- tryIncrementalBuild when the asset loop fails. -/
theorem tryIncrementalBuild_assetError (env : Env) (diskCache : Path → Except LoadErr CacheFile)
    (inputDir outputDir rssURL : Path) (fileSet : FileSetM) (keepOrphaned : Bool)
    (arrival : List SizeMsg) (cache : CacheFile) (b1 : IncBuilder) (tr1 : BuildTrace) (e : BuildErr)
    (hload : diskCache (getCachePath outputDir) = .ok cache) (hv : cache.version = 1)
    (hmd : incProcessMdFiles env inputDir outputDir ⟨cache, [], []⟩ ⟨[], []⟩
      fileSet.markdownFiles = .ok (b1, tr1))
    (ha : incProcessAssetFiles env inputDir outputDir b1 tr1 fileSet.assetFiles = .error e) :
    tryIncrementalBuild env diskCache inputDir outputDir rssURL fileSet keepOrphaned arrival
      = failedOutcome e := by
  unfold tryIncrementalBuild
  simp only [hload]
  rw [if_neg (by simp [hv])]
  simp only [hmd, ha]

/-- A completed tryIncrementalBuild decomposes into a version-1 cache load,
two successful loops, and the final record with the saved cache. -/
theorem tryIncrementalBuild_completed (env : Env) (diskCache : Path → Except LoadErr CacheFile)
    (inputDir outputDir rssURL : Path) (fileSet : FileSetM) (keepOrphaned : Bool)
    (arrival : List SizeMsg)
    (h : (tryIncrementalBuild env diskCache inputDir outputDir rssURL fileSet keepOrphaned
      arrival).completed = true) :
    ∃ cache b1 tr1 b2 tr2,
      diskCache (getCachePath outputDir) = .ok cache ∧ cache.version = 1 ∧
      incProcessMdFiles env inputDir outputDir ⟨cache, [], []⟩ ⟨[], []⟩
        fileSet.markdownFiles = .ok (b1, tr1) ∧
      incProcessAssetFiles env inputDir outputDir b1 tr1 fileSet.assetFiles = .ok (b2, tr2) ∧
      tryIncrementalBuild env diskCache inputDir outputDir rssURL fileSet keepOrphaned arrival =
        { completed := true, err := none, persisted := some ⟨1, b2.newCacheFiles⟩,
          processed := tr2.processed, sends := tr2.sends,
          removed := if keepOrphaned then [] else cleanupRemovedFiles outputDir cache.files b2.seen,
          drained := arrival } := by
  cases hload : diskCache (getCachePath outputDir) with
  | error e =>
    rw [tryIncrementalBuild_noCache env diskCache inputDir outputDir rssURL fileSet keepOrphaned
      arrival (fun c hc => by rw [hload] at hc; cases hc)] at h
    cases h
  | ok cache =>
    by_cases hv : cache.version = 1
    · cases hmd : incProcessMdFiles env inputDir outputDir ⟨cache, [], []⟩ ⟨[], []⟩
        fileSet.markdownFiles with
      | error e =>
        rw [tryIncrementalBuild_mdError env diskCache inputDir outputDir rssURL fileSet
          keepOrphaned arrival cache e hload hv hmd] at h
        cases h
      | ok s1 =>
        obtain ⟨b1, tr1⟩ := s1
        cases ha : incProcessAssetFiles env inputDir outputDir b1 tr1 fileSet.assetFiles with
        | error e =>
          rw [tryIncrementalBuild_assetError env diskCache inputDir outputDir rssURL fileSet
            keepOrphaned arrival cache b1 tr1 e hload hv hmd ha] at h
          cases h
        | ok s2 =>
          obtain ⟨b2, tr2⟩ := s2
          have hrun := tryIncrementalBuild_run env diskCache inputDir outputDir rssURL fileSet
            keepOrphaned arrival cache b1 b2 tr1 tr2 hload hv hmd ha
          rw [hrun] at h
          by_cases hrss : rssURL ≠ [] ∧ env.rssOk = false
          · rw [if_pos hrss] at h
            cases h
          · rw [if_neg hrss] at h
            by_cases hsave : env.saveOk = false
            · rw [if_pos hsave] at h
              cases h
            · refine ⟨cache, b1, tr1, b2, tr2, rfl, hv, hmd, ha, ?_⟩
              rw [hrun]
              simp only [if_neg hrss, if_neg hsave]
    · rw [tryIncrementalBuild_noCache env diskCache inputDir outputDir rssURL fileSet keepOrphaned
        arrival (fun c hc => by rw [hload] at hc; injection hc with hc; rw [← hc]; exact hv)] at h
      cases h

/-- A failing full-build asset loop fails on some asset of the list. -/
theorem fullProcessAssets_error (env : Env) (inputDir outputDir : Path) (l : List Path)
    (e : BuildErr) (h : fullProcessAssets env inputDir outputDir l = .error e) :
    ∃ p ∈ l, env.copyOk (goJoin inputDir p) = false ∧ e = .copyAssetErr p := by
  induction l with
  | nil => cases h
  | cons p ps ih =>
    simp only [fullProcessAssets, processAssetFile] at h
    by_cases hc : env.copyOk (goJoin inputDir p) = true
    · rw [if_pos hc] at h
      simp only at h
      cases hr : fullProcessAssets env inputDir outputDir ps with
      | error e2 =>
        rw [hr] at h
        injection h with h
        obtain ⟨q, hq, hqc, hqe⟩ := ih (by rw [hr, h])
        exact ⟨q, List.mem_cons_of_mem p hq, hqc, hqe⟩
      | ok ps2 =>
        rw [hr] at h
        cases h
    · simp only [Bool.not_eq_true] at hc
      rw [if_neg (by simp [hc])] at h
      injection h with h
      exact ⟨p, List.mem_cons_self p ps, hc, h.symm⟩

/-- A successful full-build asset loop copies every asset. -/
theorem fullProcessAssets_ok (env : Env) (inputDir outputDir : Path) (l : List Path)
    (res : List Path) (h : fullProcessAssets env inputDir outputDir l = .ok res) :
    res = l ∧ ∀ p ∈ l, env.copyOk (goJoin inputDir p) = true := by
  induction l generalizing res with
  | nil =>
    simp only [fullProcessAssets] at h
    injection h with h
    exact ⟨h.symm, by simp⟩
  | cons p ps ih =>
    simp only [fullProcessAssets, processAssetFile] at h
    by_cases hc : env.copyOk (goJoin inputDir p) = true
    · rw [if_pos hc] at h
      simp only at h
      cases hr : fullProcessAssets env inputDir outputDir ps with
      | error e2 =>
        rw [hr] at h
        cases h
      | ok ps2 =>
        rw [hr] at h
        injection h with h
        obtain ⟨h1, h2⟩ := ih ps2 hr
        refine ⟨by rw [← h, h1], ?_⟩
        intro q hq
        rcases List.mem_cons.mp hq with rfl | hmem
        · exact hc
        · exact h2 q hmem
    · simp only [Bool.not_eq_true] at hc
      rw [if_neg (by simp [hc])] at h
      cases h

/-- A failing full-build markdown loop fails on some document of the list,
with that document's processing error. -/
theorem fullProcessMds_error (env : Env) (inputDir outputDir : Path) (l : List Path)
    (e : BuildErr) (h : fullProcessMds env inputDir outputDir l = .error e) :
    ∃ p ∈ l, processMarkdownFile env inputDir outputDir p = .error e := by
  induction l with
  | nil => cases h
  | cons p ps ih =>
    simp only [fullProcessMds] at h
    cases hp : processMarkdownFile env inputDir outputDir p with
    | error e2 =>
      rw [hp] at h
      injection h with h
      exact ⟨p, List.mem_cons_self p ps, by rw [hp, h]⟩
    | ok msgs =>
      rw [hp] at h
      simp only at h
      cases hr : fullProcessMds env inputDir outputDir ps with
      | error e2 =>
        rw [hr] at h
        injection h with h
        obtain ⟨q, hq, hqe⟩ := ih (by rw [hr, h])
        exact ⟨q, List.mem_cons_of_mem p hq, hqe⟩
      | ok rest =>
        rw [hr] at h
        cases h

/-- A successful full-build markdown loop processes every document. -/
theorem fullProcessMds_ok (env : Env) (inputDir outputDir : Path) (l : List Path)
    (res : List Path × List SizeMsg) (h : fullProcessMds env inputDir outputDir l = .ok res) :
    res.1 = l ∧ (∀ p ∈ l, ∀ e, processMarkdownFile env inputDir outputDir p ≠ .error e) := by
  induction l generalizing res with
  | nil =>
    simp only [fullProcessMds] at h
    injection h with h
    rw [← h]
    exact ⟨rfl, by simp⟩
  | cons p ps ih =>
    simp only [fullProcessMds] at h
    cases hp : processMarkdownFile env inputDir outputDir p with
    | error e2 =>
      rw [hp] at h
      cases h
    | ok msgs =>
      rw [hp] at h
      simp only at h
      cases hr : fullProcessMds env inputDir outputDir ps with
      | error e2 =>
        rw [hr] at h
        cases h
      | ok rest =>
        rw [hr] at h
        injection h with h
        obtain ⟨h1, h2⟩ := ih rest hr
        rw [← h]
        refine ⟨by simp [h1], ?_⟩
        intro q hq e
        rcases List.mem_cons.mp hq with rfl | hmem
        · intro hcontra
          rw [hp] at hcontra
          cases hcontra
        · exact h2 q hmem e

/-- performFullBuild when the asset loop fails. -/
theorem performFullBuild_assetError (env : Env) (inputDir outputDir rssURL : Path)
    (fileSet : FileSetM) (keepOrphaned : Bool) (outTree : FsForest) (arrival : List SizeMsg)
    (e : BuildErr) (hA : fullProcessAssets env inputDir outputDir fileSet.assetFiles = .error e) :
    performFullBuild env inputDir outputDir rssURL fileSet keepOrphaned outTree arrival
      = failedOutcome e := by
  unfold performFullBuild
  simp only [hA]

/-- performFullBuild when the markdown loop fails. -/
theorem performFullBuild_mdError (env : Env) (inputDir outputDir rssURL : Path)
    (fileSet : FileSetM) (keepOrphaned : Bool) (outTree : FsForest) (arrival : List SizeMsg)
    (pa : List Path) (e : BuildErr)
    (hA : fullProcessAssets env inputDir outputDir fileSet.assetFiles = .ok pa)
    (hM : fullProcessMds env inputDir outputDir fileSet.markdownFiles = .error e) :
    performFullBuild env inputDir outputDir rssURL fileSet keepOrphaned outTree arrival
      = failedOutcome e := by
  unfold performFullBuild
  simp only [hA, hM]

/-- performFullBuild after both loops succeed: the tail of the run written
out. -/
theorem performFullBuild_run (env : Env) (inputDir outputDir rssURL : Path)
    (fileSet : FileSetM) (keepOrphaned : Bool) (outTree : FsForest) (arrival : List SizeMsg)
    (pa pm : List Path) (sends : List SizeMsg)
    (hA : fullProcessAssets env inputDir outputDir fileSet.assetFiles = .ok pa)
    (hM : fullProcessMds env inputDir outputDir fileSet.markdownFiles = .ok (pm, sends)) :
    performFullBuild env inputDir outputDir rssURL fileSet keepOrphaned outTree arrival =
      (if rssURL ≠ [] ∧ env.rssOk = false then
        { completed := false, err := some .rssErr, persisted := none,
          processed := pa ++ pm, sends := sends, removed := [], drained := arrival }
      else
        let removed :=
          if keepOrphaned then [] else (cleanupOrphanedFiles fileSet rssURL outTree).removed
        if env.saveOk = false then
          { completed := false, err := some .saveCacheErr, persisted := none,
            processed := pa ++ pm, sends := sends, removed := removed, drained := arrival }
        else
          { completed := true, err := none,
            persisted := some (createCacheFromFileSet env inputDir fileSet),
            processed := pa ++ pm, sends := sends, removed := removed, drained := arrival }) := by
  unfold performFullBuild
  simp only [hA, hM]

/-- With a version-1 cache loaded, the incremental attempt never falls
through to the full build: it either errors or completes. -/
theorem tryIncrementalBuild_valid_no_fallthrough (env : Env)
    (diskCache : Path → Except LoadErr CacheFile) (inputDir outputDir rssURL : Path)
    (fileSet : FileSetM) (keepOrphaned : Bool) (arrival : List SizeMsg) (cache : CacheFile)
    (hload : diskCache (getCachePath outputDir) = .ok cache) (hv : cache.version = 1) :
    (tryIncrementalBuild env diskCache inputDir outputDir rssURL fileSet keepOrphaned
      arrival).err ≠ none ∨
    (tryIncrementalBuild env diskCache inputDir outputDir rssURL fileSet keepOrphaned
      arrival).completed = true := by
  cases hmd : incProcessMdFiles env inputDir outputDir ⟨cache, [], []⟩ ⟨[], []⟩
      fileSet.markdownFiles with
  | error e =>
    left
    rw [tryIncrementalBuild_mdError env diskCache inputDir outputDir rssURL fileSet keepOrphaned
      arrival cache e hload hv hmd]
    simp [failedOutcome]
  | ok s1 =>
    obtain ⟨b1, tr1⟩ := s1
    cases ha : incProcessAssetFiles env inputDir outputDir b1 tr1 fileSet.assetFiles with
    | error e =>
      left
      rw [tryIncrementalBuild_assetError env diskCache inputDir outputDir rssURL fileSet
        keepOrphaned arrival cache b1 tr1 e hload hv hmd ha]
      simp [failedOutcome]
    | ok s2 =>
      obtain ⟨b2, tr2⟩ := s2
      rw [tryIncrementalBuild_run env diskCache inputDir outputDir rssURL fileSet keepOrphaned
        arrival cache b1 b2 tr1 tr2 hload hv hmd ha]
      by_cases hrss : rssURL ≠ [] ∧ env.rssOk = false
      · left
        simp [hrss]
      · rw [if_neg hrss]
        by_cases hsave : env.saveOk = false
        · left
          simp [hsave]
        · right
          simp [hsave]

/-- Claim C1: BuildSite selects the incremental strategy exactly when the
disable-incremental option is off, the cache loads from the fixed path inside
the output directory, and the loaded version equals 1; in every other case it
performs the full strategy, and two builds whose cache loads fail with
different errors (absent versus corrupt) behave identically. -/
theorem c1_strategy_selection (env : Env) (diskCache : Path → Except LoadErr CacheFile)
    (inputDir outputDir rssURL : Path) (fileSet : FileSetM) (keepOrphaned : Bool)
    (outTree : FsForest) (arrival : List SizeMsg) (noIncremental : Bool) :
    ((buildSite env diskCache inputDir outputDir rssURL fileSet noIncremental keepOrphaned
        outTree arrival).1 = .incremental ↔
      (noIncremental = false ∧
        ∃ c, diskCache (getCachePath outputDir) = .ok c ∧ c.version = 1)) ∧
    (∀ a b : LoadErr,
      buildSite env (fun _ => .error a) inputDir outputDir rssURL fileSet noIncremental
        keepOrphaned outTree arrival =
      buildSite env (fun _ => .error b) inputDir outputDir rssURL fileSet noIncremental
        keepOrphaned outTree arrival) := by
  refine ⟨⟨?_, ?_⟩, ?_⟩
  · intro hs
    by_cases hni : noIncremental = true
    · exfalso
      unfold buildSite at hs
      rw [if_pos hni] at hs
      cases hs
    · simp only [Bool.not_eq_true] at hni
      refine ⟨hni, ?_⟩
      by_contra hnc
      push_neg at hnc
      have hno : ∀ c, diskCache (getCachePath outputDir) = .ok c → c.version ≠ 1 := by
        intro c hc
        exact hnc c hc
      unfold buildSite at hs
      rw [if_neg (by simp [hni])] at hs
      rw [tryIncrementalBuild_noCache env diskCache inputDir outputDir rssURL fileSet
        keepOrphaned arrival hno] at hs
      simp [noCacheOutcome] at hs
  · rintro ⟨hni, c, hload, hv⟩
    unfold buildSite
    rw [if_neg (by simp [hni])]
    rcases tryIncrementalBuild_valid_no_fallthrough env diskCache inputDir outputDir rssURL
      fileSet keepOrphaned arrival c hload hv with herr | hcomp
    · cases hres : (tryIncrementalBuild env diskCache inputDir outputDir rssURL fileSet
        keepOrphaned arrival).err with
      | none => exact absurd hres herr
      | some e => simp [hres]
    · cases hres : (tryIncrementalBuild env diskCache inputDir outputDir rssURL fileSet
        keepOrphaned arrival).err with
      | none => simp [hres, hcomp]
      | some e => simp [hres]
  · intro a b
    by_cases hni : noIncremental = true
    · unfold buildSite
      rw [if_pos hni, if_pos hni]
    · unfold buildSite
      rw [if_neg hni, if_neg hni]
      rw [tryIncrementalBuild_noCache env _ inputDir outputDir rssURL fileSet keepOrphaned
        arrival (fun c hc => by cases hc)]
      rw [tryIncrementalBuild_noCache env _ inputDir outputDir rssURL fileSet keepOrphaned
        arrival (fun c hc => by cases hc)]

/-- Lookup in a cache populated by the two loops (documents then assets):
exactly one entry per discovered path, none for any other path. -/
theorem findEntry_two_insertMapped (mkA mkB : Path → CacheFileEntry)
    (docs assets : List Path) (hnd1 : docs.Nodup) (hnd2 : assets.Nodup)
    (hdisj : ∀ p ∈ docs, p ∉ assets) (q : Path) (e : CacheFileEntry) :
    findEntry (insertMapped mkB (insertMapped mkA [] docs) assets) q = some e ↔
      (q ∈ docs ∧ e = mkA q) ∨ (q ∈ assets ∧ e = mkB q) := by
  by_cases hqa : q ∈ assets
  · rw [findEntry_insertMapped_of_mem mkB _ assets q hnd2 hqa]
    have hqd : q ∉ docs := fun hq => hdisj q hq hqa
    constructor
    · intro h
      injection h with h
      exact Or.inr ⟨hqa, h.symm⟩
    · rintro (⟨hq, _⟩ | ⟨_, he⟩)
      · exact absurd hq hqd
      · rw [he]
  · rw [findEntry_insertMapped_of_not_mem mkB _ assets q hqa]
    by_cases hqd : q ∈ docs
    · rw [findEntry_insertMapped_of_mem mkA _ docs q hnd1 hqd]
      constructor
      · intro h
        injection h with h
        exact Or.inl ⟨hqd, h.symm⟩
      · rintro (⟨_, he⟩ | ⟨hq, _⟩)
        · rw [he]
        · exact absurd hq hqa
    · rw [findEntry_insertMapped_of_not_mem mkA _ docs q hqd]
      simp only [findEntry]
      constructor
      · intro h
        cases h
      · rintro (⟨hq, _⟩ | ⟨hq, _⟩)
        · exact absurd hq hqd
        · exact absurd hq hqa

/-- Claim C2: a successful build, under either strategy, persists a cache
with exactly one entry per discovered path, carrying that path's current
modification time and computed output path; in the incremental strategy an
unchanged document is skipped for processing yet its entry is still written,
so no discovered path is dropped. -/
theorem c2_new_cache_exact (env : Env) (diskCache : Path → Except LoadErr CacheFile)
    (inputDir outputDir rssURL : Path) (fileSet : FileSetM) (keepOrphaned : Bool)
    (arrival : List SizeMsg)
    (hnd1 : fileSet.markdownFiles.Nodup) (hnd2 : fileSet.assetFiles.Nodup)
    (hdisj : ∀ p ∈ fileSet.markdownFiles, p ∉ fileSet.assetFiles) :
    ((tryIncrementalBuild env diskCache inputDir outputDir rssURL fileSet keepOrphaned
        arrival).completed = true →
      ∃ cache C,
        diskCache (getCachePath outputDir) = .ok cache ∧
        (tryIncrementalBuild env diskCache inputDir outputDir rssURL fileSet keepOrphaned
          arrival).persisted = some C ∧
        (∀ q e, findEntry C.files q = some e ↔
          (q ∈ fileSet.markdownFiles ∧ e = mdEntry env inputDir q) ∨
          (q ∈ fileSet.assetFiles ∧ e = assetEntry env inputDir q)) ∧
        (∀ q, q ∈ fileSet.markdownFiles → entryChanged env cache inputDir q = false →
          q ∉ (tryIncrementalBuild env diskCache inputDir outputDir rssURL fileSet keepOrphaned
            arrival).processed ∧
          findEntry C.files q = some (mdEntry env inputDir q))) ∧
    (∀ q e, findEntry (createCacheFromFileSet env inputDir fileSet).files q = some e ↔
      (q ∈ fileSet.markdownFiles ∧ e = mdEntry env inputDir q) ∨
      (q ∈ fileSet.assetFiles ∧ e = assetEntry env inputDir q)) := by
  constructor
  · intro hcomp
    obtain ⟨cache, b1, tr1, b2, tr2, hload, hv, hmd, ha, hrun⟩ :=
      tryIncrementalBuild_completed env diskCache inputDir outputDir rssURL fileSet
        keepOrphaned arrival hcomp
    obtain ⟨hc1, hn1, hs1, hpr1, _⟩ :=
      incProcessMdFiles_ok env inputDir outputDir fileSet.markdownFiles _ _ b1 tr1 hmd
    obtain ⟨hc2, hn2, hs2, hpr2, _⟩ :=
      incProcessAssetFiles_ok env inputDir outputDir fileSet.assetFiles b1 tr1 b2 tr2 ha
    simp only at hc1 hn1 hs1 hpr1 hc2 hn2 hs2 hpr2
    have hfiles : b2.newCacheFiles =
        insertMapped (fun p => assetEntry env inputDir p)
          (insertMapped (fun p => mdEntry env inputDir p) [] fileSet.markdownFiles)
          fileSet.assetFiles := by
      rw [hn2, hn1]
    have hchar : ∀ q e, findEntry b2.newCacheFiles q = some e ↔
        (q ∈ fileSet.markdownFiles ∧ e = mdEntry env inputDir q) ∨
        (q ∈ fileSet.assetFiles ∧ e = assetEntry env inputDir q) := by
      intro q e
      rw [hfiles]
      exact findEntry_two_insertMapped _ _ _ _ hnd1 hnd2 hdisj q e
    refine ⟨cache, ⟨1, b2.newCacheFiles⟩, hload, ?_, hchar, ?_⟩
    · rw [hrun]
    · intro q hq hunch
      constructor
      · rw [hrun]
        simp only
        rw [hpr2, hpr1, hc1]
        simp only [List.nil_append, List.mem_append]
        intro hcon
        cases hcon with
        | inl hin =>
          have := List.mem_filter.mp hin
          rw [hunch] at this
          cases this.2
        | inr hin =>
          have := List.mem_filter.mp hin
          exact hdisj q hq this.1
      · exact (hchar q (mdEntry env inputDir q)).mpr (Or.inl ⟨hq, rfl⟩)
  · intro q e
    unfold createCacheFromFileSet
    exact findEntry_two_insertMapped _ _ _ _ hnd1 hnd2 hdisj q e

/-- Claim C3: if processing any individual file fails, the build returns
that error at once, the error names the offending input-relative path, and
the cache save step is never reached, in both strategies.  For the
incremental strategy the statement is conditional on a version-1 cache
having loaded, which is what makes the incremental loop run. -/
theorem c3_processing_error_aborts (env : Env) (diskCache : Path → Except LoadErr CacheFile)
    (inputDir outputDir rssURL : Path) (fileSet : FileSetM) (keepOrphaned : Bool)
    (outTree : FsForest) (arrival : List SizeMsg) :
    (∀ cache, diskCache (getCachePath outputDir) = .ok cache → cache.version = 1 →
      ((∃ p ∈ fileSet.markdownFiles, entryChanged env cache inputDir p = true ∧
          docFailsB env inputDir outputDir p = true) ∨
       (∃ p ∈ fileSet.assetFiles, entryChanged env cache inputDir p = true ∧
          env.copyOk (goJoin inputDir p) = false)) →
      ∃ e q,
        tryIncrementalBuild env diskCache inputDir outputDir rssURL fileSet keepOrphaned
          arrival = failedOutcome e ∧
        (tryIncrementalBuild env diskCache inputDir outputDir rssURL fileSet keepOrphaned
          arrival).persisted = none ∧
        e.offendingPath = some q ∧
        ((q ∈ fileSet.markdownFiles ∧ processMarkdownFile env inputDir outputDir q = .error e) ∨
         (q ∈ fileSet.assetFiles ∧ env.copyOk (goJoin inputDir q) = false ∧
           e = .copyAssetErr q)) ∧
        buildSite env diskCache inputDir outputDir rssURL fileSet false keepOrphaned outTree
          arrival = (.incremental, failedOutcome e)) ∧
    (((∃ p ∈ fileSet.assetFiles, env.copyOk (goJoin inputDir p) = false) ∨
      (∃ p ∈ fileSet.markdownFiles, docFailsB env inputDir outputDir p = true)) →
      ∃ e q,
        performFullBuild env inputDir outputDir rssURL fileSet keepOrphaned outTree arrival
          = failedOutcome e ∧
        (performFullBuild env inputDir outputDir rssURL fileSet keepOrphaned outTree
          arrival).persisted = none ∧
        e.offendingPath = some q ∧
        ((q ∈ fileSet.markdownFiles ∧ processMarkdownFile env inputDir outputDir q = .error e) ∨
         (q ∈ fileSet.assetFiles ∧ env.copyOk (goJoin inputDir q) = false ∧
           e = .copyAssetErr q))) := by
  constructor
  · intro cache hload hv hfail
    cases hmd : incProcessMdFiles env inputDir outputDir ⟨cache, [], []⟩ ⟨[], []⟩
        fileSet.markdownFiles with
    | error e =>
      obtain ⟨q, hq, hqc, hqe⟩ := incProcessMdFiles_error env inputDir outputDir
        fileSet.markdownFiles _ _ e hmd
      have hfo := tryIncrementalBuild_mdError env diskCache inputDir outputDir rssURL fileSet
        keepOrphaned arrival cache e hload hv hmd
      refine ⟨e, q, hfo, by rw [hfo]; rfl,
        processMarkdownFile_error_names env inputDir outputDir q e hqe,
        Or.inl ⟨hq, hqe⟩, ?_⟩
      unfold buildSite
      rw [if_neg (by simp)]
      rw [hfo]
      rfl
    | ok s1 =>
      obtain ⟨b1, tr1⟩ := s1
      have hmdcache : b1.cache = cache :=
        (incProcessMdFiles_ok env inputDir outputDir fileSet.markdownFiles _ _ b1 tr1 hmd).1
      cases ha : incProcessAssetFiles env inputDir outputDir b1 tr1 fileSet.assetFiles with
      | error e =>
        obtain ⟨q, hq, hqc, hqcopy, hqe⟩ := incProcessAssetFiles_error env inputDir outputDir
          fileSet.assetFiles b1 tr1 e ha
        have hfo := tryIncrementalBuild_assetError env diskCache inputDir outputDir rssURL
          fileSet keepOrphaned arrival cache b1 tr1 e hload hv hmd ha
        refine ⟨e, q, hfo, by rw [hfo]; rfl, by rw [hqe]; rfl,
          Or.inr ⟨hq, hqcopy, hqe⟩, ?_⟩
        unfold buildSite
        rw [if_neg (by simp)]
        rw [hfo]
        rfl
      | ok s2 =>
        obtain ⟨b2, tr2⟩ := s2
        exfalso
        cases hfail with
        | inl hf =>
          obtain ⟨p, hp, hpc, hpf⟩ := hf
          unfold docFailsB at hpf
          cases hpe : processMarkdownFile env inputDir outputDir p with
          | error e =>
            exact incProcessMdFiles_ok_no_failure env inputDir outputDir
              fileSet.markdownFiles _ _ b1 tr1 hmd p hp hpc e hpe
          | ok msgs =>
            rw [hpe] at hpf
            cases hpf
        | inr hf =>
          obtain ⟨p, hp, hpc, hpcopy⟩ := hf
          have := incProcessAssetFiles_ok_no_failure env inputDir outputDir
            fileSet.assetFiles b1 tr1 b2 tr2 ha p hp (by rw [hmdcache]; exact hpc)
          rw [this] at hpcopy
          cases hpcopy
  · intro hfail
    cases hA : fullProcessAssets env inputDir outputDir fileSet.assetFiles with
    | error e =>
      obtain ⟨q, hq, hqcopy, hqe⟩ := fullProcessAssets_error env inputDir outputDir
        fileSet.assetFiles e hA
      have hfo := performFullBuild_assetError env inputDir outputDir rssURL fileSet
        keepOrphaned outTree arrival e hA
      exact ⟨e, q, hfo, by rw [hfo]; rfl, by rw [hqe]; rfl, Or.inr ⟨hq, hqcopy, hqe⟩⟩
    | ok pa =>
      obtain ⟨-, hallA⟩ := fullProcessAssets_ok env inputDir outputDir fileSet.assetFiles pa hA
      cases hM : fullProcessMds env inputDir outputDir fileSet.markdownFiles with
      | error e =>
        obtain ⟨q, hq, hqe⟩ := fullProcessMds_error env inputDir outputDir
          fileSet.markdownFiles e hM
        have hfo := performFullBuild_mdError env inputDir outputDir rssURL fileSet
          keepOrphaned outTree arrival pa e hA hM
        exact ⟨e, q, hfo, by rw [hfo]; rfl,
          processMarkdownFile_error_names env inputDir outputDir q e hqe,
          Or.inl ⟨hq, hqe⟩⟩
      | ok res =>
        obtain ⟨-, hallM⟩ := fullProcessMds_ok env inputDir outputDir
          fileSet.markdownFiles res hM
        exfalso
        cases hfail with
        | inl hf =>
          obtain ⟨p, hp, hpcopy⟩ := hf
          rw [hallA p hp] at hpcopy
          cases hpcopy
        | inr hf =>
          obtain ⟨p, hp, hpf⟩ := hf
          unfold docFailsB at hpf
          cases hpe : processMarkdownFile env inputDir outputDir p with
          | error e => exact hallM p hp e hpe
          | ok msgs =>
            rw [hpe] at hpf
            cases hpf

/-- Claim C4: in a completed incremental build, cleanup removes the recorded
output of exactly the prior-cache paths absent from the current file set;
removal of an already-missing output file is not an error (os.Remove's
result is ignored, and erasing an absent path is the identity); and with the
orphan-retention option set no deletion occurs. -/
theorem c4_incremental_cleanup (env : Env) (diskCache : Path → Except LoadErr CacheFile)
    (inputDir outputDir rssURL : Path) (fileSet : FileSetM) (keepOrphaned : Bool)
    (arrival : List SizeMsg)
    (hcomp : (tryIncrementalBuild env diskCache inputDir outputDir rssURL fileSet keepOrphaned
      arrival).completed = true) :
    (keepOrphaned = true →
      (tryIncrementalBuild env diskCache inputDir outputDir rssURL fileSet keepOrphaned
        arrival).removed = []) ∧
    (keepOrphaned = false →
      ∃ cache, diskCache (getCachePath outputDir) = .ok cache ∧
        ∀ q, (q ∈ (tryIncrementalBuild env diskCache inputDir outputDir rssURL fileSet
            keepOrphaned arrival).removed ↔
          ∃ pe, pe ∈ cache.files ∧
            pe.1 ∉ fileSet.markdownFiles ++ fileSet.assetFiles ∧
            q = goJoin outputDir pe.2.output)) ∧
    (∀ fsState : List Path, ∀ q : Path, q ∉ fsState → osRemove fsState q = fsState) := by
  obtain ⟨cache, b1, tr1, b2, tr2, hload, hv, hmd, ha, hrun⟩ :=
    tryIncrementalBuild_completed env diskCache inputDir outputDir rssURL fileSet
      keepOrphaned arrival hcomp
  obtain ⟨hc1, hn1, hs1, _, _⟩ :=
    incProcessMdFiles_ok env inputDir outputDir fileSet.markdownFiles _ _ b1 tr1 hmd
  obtain ⟨hc2, hn2, hs2, _, _⟩ :=
    incProcessAssetFiles_ok env inputDir outputDir fileSet.assetFiles b1 tr1 b2 tr2 ha
  simp only at hc1 hn1 hs1 hc2 hn2 hs2
  have hseen : b2.seen = fileSet.markdownFiles ++ fileSet.assetFiles := by
    rw [hs2, hs1]
    simp
  refine ⟨?_, ?_, ?_⟩
  · intro hk
    rw [hrun]
    simp [hk]
  · intro hk
    refine ⟨cache, hload, ?_⟩
    intro q
    rw [hrun]
    simp only [hk, if_false, Bool.false_eq_true]
    rw [hseen]
    unfold cleanupRemovedFiles
    simp only [List.mem_map, List.mem_filter, Bool.not_eq_eq_eq_not, Bool.not_true,
      decide_eq_false_iff_not]
    constructor
    · rintro ⟨kv, ⟨hkv, hns⟩, hq⟩
      exact ⟨kv, hkv, hns, hq.symm⟩
    · rintro ⟨kv, hkv, hns, hq⟩
      exact ⟨kv, ⟨hkv, hns⟩, hq.symm⟩
  · intro fsState q hq
    exact List.erase_of_not_mem hq

/-- Claim C5 counterexample: a hidden file ".stale" in the output tree is
not the cache file, not expected, yet full-build cleanup does not delete it,
refuting the claimed "deletes iff not expected and not the cache file". -/
theorem c5_counterexample :
    (pathOf ".stale") ∈ forestFiles [] (.cons (.file (pathOf ".stale")) .nil) ∧
    isExpectedFile ⟨[], []⟩ [] (pathOf ".stale") = false ∧
    pathOf ".stale" ≠ cacheName ∧
    pathOf ".stale" ∉
      (cleanupOrphanedFiles ⟨[], []⟩ [] (.cons (.file (pathOf ".stale")) .nil)).removed := by
  decide

/-- Claim C5 (amended): full-build reconciliation deletes a file of the
output tree iff no component of its relative path begins with "." and it is
not the expected output of a discovered document, a discovered asset, or the
feed file while RSS is enabled; the cache file (whose name begins with ".")
is never visited as a deletion candidate. -/
theorem c5_full_cleanup_amended (fs : FileSetM) (rssURL : Path) (outTree : FsForest)
    (hwf : forestHasNames outTree = true) (q : Path) :
    (q ∈ (cleanupOrphanedFiles fs rssURL outTree).removed ↔
      q ∈ forestFiles [] outTree ∧ hiddenAnyP q = false ∧
        isExpectedFile fs rssURL q = false) ∧
    cacheName ∉ (cleanupOrphanedFiles fs rssURL outTree).candidates := by
  have h := cleanForest_eq_filter fs rssURL [] hiddenAnyP_nil outTree hwf
  unfold cleanupOrphanedFiles
  rw [h]
  constructor
  · simp [List.mem_filter, Bool.and_eq_true, Bool.not_eq_true', and_assoc]
  · intro hcontra
    have hmem := (List.mem_filter.mp hcontra).2
    simp only [Bool.not_eq_true'] at hmem
    have : hiddenAnyP cacheName = true := by decide
    rw [this] at hmem
    cases hmem

/-- Claim C6: the output path of a document is its input-relative path with
the extension replaced by ".html", and of an asset the path unchanged; the
processor's join-then-replace destination, the relativised cache entry, the
expected-file test of full cleanup and cache construction all agree on this
derivation. -/
theorem c6_output_path_derivation (env : Env) (inputDir outputDir f : Path) :
    mdDst outputDir f = goJoin outputDir (docOutputPath f) ∧
    goRel outputDir (mdDst outputDir f) = some (docOutputPath f) ∧
    goRel outputDir (goJoin outputDir f) = some f ∧
    (mdEntry env inputDir f).output = docOutputPath f ∧
    (assetEntry env inputDir f).output = f ∧
    isExpectedFile ⟨[f], []⟩ [] (docOutputPath f) = true ∧
    isExpectedFile ⟨[], [f]⟩ [] f = true := by
  refine ⟨mdDst_eq_goJoin outputDir f, goRel_mdDst outputDir f, goRel_goJoin outputDir f,
    rfl, rfl, ?_, ?_⟩
  · simp [isExpectedFile]
  · simp [isExpectedFile]

/-- Claim C7: discovery excludes exactly the paths with a hidden component
(pruning hidden subtrees), and classifies every surviving regular file as a
document iff its extension is exactly ".md" or ".markdown", otherwise as an
asset; no file lands in both sequences. -/
theorem c7_discovery_classification (root : FsForest) (p : Path) :
    (p ∈ (discoverFiles root).markdownFiles ↔
      p ∈ forestFiles [] root ∧ isHiddenFile p = false ∧ isDocExt (goExt p) = true) ∧
    (p ∈ (discoverFiles root).assetFiles ↔
      p ∈ forestFiles [] root ∧ isHiddenFile p = false ∧ isDocExt (goExt p) = false) ∧
    ¬(p ∈ (discoverFiles root).markdownFiles ∧ p ∈ (discoverFiles root).assetFiles) := by
  have h := discoverForest_eq_filter [] root
  unfold discoverFiles
  rw [h]
  refine ⟨?_, ?_, ?_⟩
  · simp [List.mem_filter, okMd, Bool.and_eq_true, Bool.not_eq_true', and_assoc]
  · simp [List.mem_filter, okAsset, Bool.and_eq_true, Bool.not_eq_true', and_assoc]
  · rintro ⟨h1, h2⟩
    have e1 := (List.mem_filter.mp h1).2
    have e2 := (List.mem_filter.mp h2).2
    simp only [okMd, okAsset, Bool.and_eq_true, Bool.not_eq_true'] at e1 e2
    exact absurd (e1.2.symm.trans e2.2) (by decide)

/-- Flattening unit-length groups gives one element per group. -/
theorem flatten_map_length_eq (f : Path → List SizeMsg) (l : List Path)
    (h : ∀ p ∈ l, (f p).length = 1) : ((l.map f).flatten).length = l.length := by
  induction l with
  | nil => rfl
  | cons p ps ih =>
    simp only [List.map_cons, List.flatten_cons, List.length_append, List.length_cons]
    rw [h p (List.mem_cons_self p ps), ih (fun q hq => h q (List.mem_cons_of_mem p hq))]
    omega

/-- When the goroutine can read the written output back, each document
contributes exactly one advisory message. -/
theorem mdSendFor_length (env : Env) (cache : CacheFile) (inputDir outputDir p : Path)
    (hgz : env.gzipReadOk (mdDst outputDir p) = true) :
    (mdSendFor env cache inputDir outputDir p).length = 1 := by
  unfold mdSendFor
  by_cases hch : entryChanged env cache inputDir p = true
  · simp [hch, hgz]
  · simp only [Bool.not_eq_true] at hch
    simp [hch]

/-- Claim C8 (amended): a completed incremental build drains exactly as many
advisory results as there are discovered documents (each advisory goroutine
sending its one message), and the drained list is a permutation of the
per-document advisories, each naming its originating output; the reported
order is the channel-arrival order, not necessarily discovery order. -/
theorem c8_drain_count_amended (env : Env) (diskCache : Path → Except LoadErr CacheFile)
    (inputDir outputDir rssURL : Path) (fileSet : FileSetM) (keepOrphaned : Bool)
    (arrival : List SizeMsg)
    (hgz : ∀ p ∈ fileSet.markdownFiles, env.gzipReadOk (mdDst outputDir p) = true)
    (hcomp : (tryIncrementalBuild env diskCache inputDir outputDir rssURL fileSet keepOrphaned
      arrival).completed = true)
    (hperm : arrival.Perm (tryIncrementalBuild env diskCache inputDir outputDir rssURL fileSet
      keepOrphaned arrival).sends) :
    (tryIncrementalBuild env diskCache inputDir outputDir rssURL fileSet keepOrphaned
      arrival).drained = arrival ∧
    (tryIncrementalBuild env diskCache inputDir outputDir rssURL fileSet keepOrphaned
      arrival).drained.length = fileSet.markdownFiles.length ∧
    (tryIncrementalBuild env diskCache inputDir outputDir rssURL fileSet keepOrphaned
      arrival).drained.Perm (tryIncrementalBuild env diskCache inputDir outputDir rssURL
      fileSet keepOrphaned arrival).sends ∧
    ∃ cache, diskCache (getCachePath outputDir) = .ok cache ∧
      (tryIncrementalBuild env diskCache inputDir outputDir rssURL fileSet keepOrphaned
        arrival).sends =
        (fileSet.markdownFiles.map
          (fun p => mdSendFor env cache inputDir outputDir p)).flatten := by
  obtain ⟨cache, b1, tr1, b2, tr2, hload, hv, hmd, ha, hrun⟩ :=
    tryIncrementalBuild_completed env diskCache inputDir outputDir rssURL fileSet
      keepOrphaned arrival hcomp
  obtain ⟨hc1, _, _, _, hsd1⟩ :=
    incProcessMdFiles_ok env inputDir outputDir fileSet.markdownFiles _ _ b1 tr1 hmd
  obtain ⟨_, _, _, _, hsd2⟩ :=
    incProcessAssetFiles_ok env inputDir outputDir fileSet.assetFiles b1 tr1 b2 tr2 ha
  simp only at hc1 hsd1 hsd2
  have hsends : (tryIncrementalBuild env diskCache inputDir outputDir rssURL fileSet
      keepOrphaned arrival).sends =
      (fileSet.markdownFiles.map (fun p => mdSendFor env cache inputDir outputDir p)).flatten := by
    rw [hrun]
    simp only
    rw [hsd2, hsd1]
    simp
  have hdrained : (tryIncrementalBuild env diskCache inputDir outputDir rssURL fileSet
      keepOrphaned arrival).drained = arrival := by
    rw [hrun]
  refine ⟨hdrained, ?_, by rw [hdrained]; exact hperm, cache, hload, hsends⟩
  rw [hdrained, hperm.length_eq, hsends]
  exact flatten_map_length_eq _ _ (fun p hp =>
    mdSendFor_length env cache inputDir outputDir p (hgz p hp))

/-- Claim C8 counterexample: with two changed documents the two advisory
goroutines may complete in either order; an arrival order that swaps them is
a permutation of the sends, and the drained list then differs from the
discovery-ordered sends, refuting the claimed discovery-order reporting. -/
theorem c8_counterexample :
    (tryIncrementalBuild envW loadW inW outW [] fs8 false [msgB, msgA]).completed = true ∧
    (tryIncrementalBuild envW loadW inW outW [] fs8 false [msgB, msgA]).sends = [msgA, msgB] ∧
    (tryIncrementalBuild envW loadW inW outW [] fs8 false [msgB, msgA]).drained = [msgB, msgA] ∧
    (tryIncrementalBuild envW loadW inW outW [] fs8 false [msgB, msgA]).drained.Perm
      (tryIncrementalBuild envW loadW inW outW [] fs8 false [msgB, msgA]).sends ∧
    (tryIncrementalBuild envW loadW inW outW [] fs8 false [msgB, msgA]).drained ≠
      (tryIncrementalBuild envW loadW inW outW [] fs8 false [msgB, msgA]).sends := by
  refine ⟨by decide, by decide, by decide, ?_, by decide⟩
  have h1 : (tryIncrementalBuild envW loadW inW outW [] fs8 false [msgB, msgA]).sends
      = [msgA, msgB] := by decide
  have h2 : (tryIncrementalBuild envW loadW inW outW [] fs8 false [msgB, msgA]).drained
      = [msgB, msgA] := by decide
  rw [h1, h2]
  exact List.Perm.swap msgA msgB []

/-- Claim C9: a stat failure during change detection or cache construction
does not fail the build: getMtime reports 0, the new cache entry records
mtime 0, and an incremental build treats the path as changed whenever the
prior entry's mtime is nonzero. -/
theorem c9_stat_failure_mtime_zero (env : Env) (inputDir : Path) (fileSet : FileSetM)
    (cache : CacheFile) (p : Path)
    (hnd1 : fileSet.markdownFiles.Nodup) (hnd2 : fileSet.assetFiles.Nodup)
    (hdisj : ∀ q ∈ fileSet.markdownFiles, q ∉ fileSet.assetFiles)
    (hstat : env.statMtime (goJoin inputDir p) = none) :
    getMtime env (goJoin inputDir p) = 0 ∧
    (p ∈ fileSet.markdownFiles →
      findEntry (createCacheFromFileSet env inputDir fileSet).files p =
        some ⟨0, docOutputPath p⟩) ∧
    (p ∈ fileSet.assetFiles →
      findEntry (createCacheFromFileSet env inputDir fileSet).files p = some ⟨0, p⟩) ∧
    (∀ prev, findEntry cache.files p = some prev → prev.mtime ≠ 0 →
      entryChanged env cache inputDir p = true) := by
  have hz : getMtime env (goJoin inputDir p) = 0 := by
    unfold getMtime
    rw [hstat]
  refine ⟨hz, ?_, ?_, ?_⟩
  · intro hp
    unfold createCacheFromFileSet
    have := (findEntry_two_insertMapped
      (fun f => ⟨getMtime env (goJoin inputDir f), docOutputPath f⟩)
      (fun f => ⟨getMtime env (goJoin inputDir f), f⟩)
      fileSet.markdownFiles fileSet.assetFiles hnd1 hnd2 hdisj p
      ⟨0, docOutputPath p⟩).mpr (Or.inl ⟨hp, by rw [hz]⟩)
    exact this
  · intro hp
    unfold createCacheFromFileSet
    have := (findEntry_two_insertMapped
      (fun f => ⟨getMtime env (goJoin inputDir f), docOutputPath f⟩)
      (fun f => ⟨getMtime env (goJoin inputDir f), f⟩)
      fileSet.markdownFiles fileSet.assetFiles hnd1 hnd2 hdisj p
      ⟨0, p⟩).mpr (Or.inr ⟨hp, by rw [hz]⟩)
    exact this
  · intro prev hprev hne
    unfold entryChanged
    rw [hprev, hz]
    simp [hne]

/-- Claim C10: full-build cleanup neither deletes nor even tests any file of
the output tree having a hidden path component, so hidden files placed in
the output tree survive every full build. -/
theorem c10_hidden_outputs_survive (fs : FileSetM) (rssURL : Path) (outTree : FsForest)
    (hwf : forestHasNames outTree = true) (q : Path)
    (hq : q ∈ forestFiles [] outTree) (hh : hiddenAnyP q = true) :
    q ∉ (cleanupOrphanedFiles fs rssURL outTree).removed ∧
    q ∉ (cleanupOrphanedFiles fs rssURL outTree).candidates := by
  have h := cleanForest_eq_filter fs rssURL [] hiddenAnyP_nil outTree hwf
  unfold cleanupOrphanedFiles
  rw [h]
  constructor
  · intro hc
    have := (List.mem_filter.mp hc).2
    rw [hh] at this
    simp at this
  · intro hc
    have := (List.mem_filter.mp hc).2
    rw [hh] at this
    simp at this

/-- Witness for C2 at a concrete completed run. -/
theorem c2_witness :
    ∃ C, (tryIncrementalBuild envW loadW inW outW [] fsW false []).persisted = some C ∧
      findEntry C.files (pathOf "a.md") = some (mdEntry envW inW (pathOf "a.md")) ∧
      findEntry C.files (pathOf "s.css") = some (assetEntry envW inW (pathOf "s.css")) := by
  obtain ⟨cache, C, hload, hC, hchar, hskip⟩ :=
    (c2_new_cache_exact envW loadW inW outW [] fsW false [] (by decide) (by decide)
      (by decide)).1 (by decide)
  exact ⟨C, hC, (hchar _ _).mpr (Or.inl ⟨by decide, rfl⟩),
    (hchar _ _).mpr (Or.inr ⟨by decide, rfl⟩)⟩

/-- Witness for C3 at a concrete failing run. -/
theorem c3_witness :
    ∃ e q, tryIncrementalBuild envBad loadW inW outW [] fsW false [] = failedOutcome e ∧
      e.offendingPath = some q := by
  obtain ⟨e, q, hfo, -, hop, -, -⟩ :=
    (c3_processing_error_aborts envBad loadW inW outW [] fsW false FsForest.nil []).1
      cacheW rfl rfl (Or.inl ⟨pathOf "a.md", by decide, by decide, by decide⟩)
  exact ⟨e, q, hfo, hop⟩

/-- Witness for C4 at a concrete orphan-retaining run. -/
theorem c4_witness :
    (tryIncrementalBuild envW loadW inW outW [] fsW true []).removed = [] :=
  (c4_incremental_cleanup envW loadW inW outW [] fsW true [] (by decide)).1 rfl

/-- Witness for the amended C5 at a concrete output tree. -/
theorem c5_full_cleanup_amended_witness :
    pathOf "junk.txt" ∈ (cleanupOrphanedFiles fsW [] treeW).removed :=
  ((c5_full_cleanup_amended fsW [] treeW (by decide) (pathOf "junk.txt")).1).mpr
    ⟨by decide, by decide, by decide⟩

/-- Witness for the amended C8 at a concrete two-document run. -/
theorem c8_witness :
    (tryIncrementalBuild envW loadW inW outW [] fs8 false [msgB, msgA]).drained.length =
      fs8.markdownFiles.length := by
  have hperm : ([msgB, msgA] : List SizeMsg).Perm
      (tryIncrementalBuild envW loadW inW outW [] fs8 false [msgB, msgA]).sends := by
    have h1 : (tryIncrementalBuild envW loadW inW outW [] fs8 false [msgB, msgA]).sends
        = [msgA, msgB] := by decide
    rw [h1]
    exact List.Perm.swap msgA msgB []
  exact ((c8_drain_count_amended envW loadW inW outW [] fs8 false [msgB, msgA]
    (by decide) (by decide) hperm).2).1

/-- Witness for C9 at a concrete stat-failing environment. -/
theorem c9_witness :
    getMtime envStatFail (goJoin inW (pathOf "a.md")) = 0 ∧
    findEntry (createCacheFromFileSet envStatFail inW fsW).files (pathOf "a.md") =
      some ⟨0, docOutputPath (pathOf "a.md")⟩ ∧
    entryChanged envStatFail cacheW inW (pathOf "gone.md") = true := by
  have h := c9_stat_failure_mtime_zero envStatFail inW fsW cacheW (pathOf "a.md")
    (by decide) (by decide) (by decide) rfl
  have h2 := c9_stat_failure_mtime_zero envStatFail inW fsW cacheW (pathOf "gone.md")
    (by decide) (by decide) (by decide) rfl
  exact ⟨h.1, h.2.1 (by decide), h2.2.2.2 ⟨2, pathOf "gone.html"⟩ (by decide) (by decide)⟩

/-- Witness for C10 at a concrete hidden output file. -/
theorem c10_witness :
    pathOf ".keep" ∉ (cleanupOrphanedFiles fsW [] treeW).removed :=
  (c10_hidden_outputs_survive fsW [] treeW (by decide) (pathOf ".keep") (by decide)
    (by decide)).1

end Colade
